import Mathlib

/-!
Verification development for the localization manager of the cash repository
(file scripts/localization_manager.py).  The Python functions are embedded as
executable Lean definitions over `List Char`; Python `re` patterns are
translated into explicit prefix matchers (the patterns involved use no
essential backtracking, as noted at each definition).  Modelling conventions:
Python `\d` and `\s` are modelled by their ASCII sets, and the `$` anchor by
"end of string or just before a terminal newline", matching `re` semantics
without `re.MULTILINE`.
-/

set_option autoImplicit false

/-- Catalog texts, keys and language codes are strings, embedded as `List Char`. -/
abbrev Str := List Char

/-- ASCII model of Python regex `\s` / `str.strip` whitespace. -/
def pyWhite (c : Char) : Bool :=
  c = ' ' ∨ c = '\t' ∨ c = '\n' ∨ c = '\r' ∨ c = '\x0b' ∨ c = '\x0c'

/-- Python `$` anchor (no MULTILINE): end of input, or just before a final newline. -/
def endDollar (s : Str) : Bool := s = [] ∨ s = ['\n']

/-- The character class `[@lld]` used by the specifier patterns. -/
def atSet (c : Char) : Bool := c = '@' ∨ c = 'l' ∨ c = 'd'

/-- COPY_PATTERNS entry 1, `^[\s]*$`: whitespace only. -/
def pat1 (s : Str) : Bool := endDollar (s.dropWhile pyWhite)

/-- Character class of COPY_PATTERNS entry 2, `[%@\d\.\-\+\/\#\•\→\←]`. -/
def symSet (c : Char) : Bool :=
  c = '%' ∨ c = '@' ∨ c = '.' ∨ c = '-' ∨ c = '+' ∨ c = '/' ∨ c = '#' ∨
  c = '•' ∨ c = '→' ∨ c = '←' ∨ c.isDigit

/-- COPY_PATTERNS entry 2, `^[%@\d\.\-\+\/\#\•\→\←]+$`. -/
def pat2 (s : Str) : Bool :=
  decide (s.takeWhile symSet ≠ []) && endDollar (s.dropWhile symSet)

/-- COPY_PATTERNS entry 3, `^%[@lld]+$`. -/
def pat3 : Str → Bool
  | '%' :: rest => decide (rest.takeWhile atSet ≠ []) && endDollar (rest.dropWhile atSet)
  | _ => false

/-- COPY_PATTERNS entry 4, `^%\d*\$?[@lld]+$` (the optional `$` and the digit run
are disjoint from `[@lld]`, so the greedy reading is exact). -/
def pat4 : Str → Bool
  | '%' :: rest =>
      let r1 := rest.dropWhile Char.isDigit
      let r2 := if r1.head? = some '$' then r1.tail else r1
      decide (r2.takeWhile atSet ≠ []) && endDollar (r2.dropWhile atSet)
  | _ => false

/-- Character class of COPY_PATTERNS entry 5, `[\(\)\[\]\{\}]`. -/
def brkSet (c : Char) : Bool :=
  c = '(' ∨ c = ')' ∨ c = '[' ∨ c = ']' ∨ c = '\x7b' ∨ c = '\x7d'

/-- COPY_PATTERNS entry 5, `^[\(\)\[\]\{\}]+$`. -/
def pat5 (s : Str) : Bool :=
  decide (s.takeWhile brkSet ≠ []) && endDollar (s.dropWhile brkSet)

/-- COPY_PATTERNS entry 6, `^\d+(\.\d+)?$`. -/
def pat6 (s : Str) : Bool :=
  decide (s.takeWhile Char.isDigit ≠ []) &&
    (let r := s.dropWhile Char.isDigit
     endDollar r ||
       match r with
       | '.' :: r2 =>
           decide (r2.takeWhile Char.isDigit ≠ []) && endDollar (r2.dropWhile Char.isDigit)
       | _ => false)

/-- Character class of COPY_PATTERNS entry 7, `[©®™]`. -/
def copSet (c : Char) : Bool := c = '©' ∨ c = '®' ∨ c = '™'

/-- Four decimal digits at the head of the string (`\d{4}`). -/
def fourDigitsAt : Str → Bool
  | a :: b :: c :: d :: _ => a.isDigit && b.isDigit && c.isDigit && d.isDigit
  | _ => false

/-- Search for `\d{4}` reachable through `.*` (i.e. with no newline before it). -/
def digitsSearchNoNL : Str → Bool
  | [] => false
  | c :: rest =>
      if fourDigitsAt (c :: rest) then true
      else if c = '\n' then false
      else digitsSearchNoNL rest

/-- COPY_PATTERNS entry 7, `^[©®™]+.*\d{4}` (no `$`): taking one symbol for the
`+` is complete because `.*` also matches the symbol characters. -/
def pat7 : Str → Bool
  | c :: rest => copSet c && digitsSearchNoNL rest
  | [] => false

/-- COPY_PATTERNS entry 8, `^https?://`. -/
def pat8 (s : Str) : Bool :=
  "http://".data.isPrefixOf s || "https://".data.isPrefixOf s

/-- The character class `[A-Z]`. -/
def upperAZ (c : Char) : Bool := 'A' ≤ c && c ≤ 'Z'

/-- COPY_PATTERNS entry 9, `^[A-Z]{2,3}$`. -/
def pat9 : Str → Bool
  | a :: b :: c :: r =>
      upperAZ a && upperAZ b && ((upperAZ c && endDollar r) || endDollar (c :: r))
  | a :: b :: r => upperAZ a && upperAZ b && endDollar r
  | _ => false

/-- `%` followed by the `$` anchor, the tail of COPY_PATTERNS entry 10. -/
def percentEnd : Str → Bool
  | '%' :: r => endDollar r
  | _ => false

/-- COPY_PATTERNS entry 10, `^\d+(\.\d+)?%$`. -/
def pat10 (s : Str) : Bool :=
  decide (s.takeWhile Char.isDigit ≠ []) &&
    (let r := s.dropWhile Char.isDigit
     percentEnd r ||
       match r with
       | '.' :: r2 =>
           decide (r2.takeWhile Char.isDigit ≠ []) && percentEnd (r2.dropWhile Char.isDigit)
       | _ => false)

/-- The fixed ordered list COPY_PATTERNS, as prefix matchers (`re.match`). -/
def COPY_PATTERNS : List (Str → Bool) :=
  [pat1, pat2, pat3, pat4, pat5, pat6, pat7, pat8, pat9, pat10]

/-- `LocalizationManager.is_pattern_only`: true iff some COPY_PATTERNS entry
matches at position 0 (`re.match` prefix semantics). -/
def is_pattern_only (key : Str) : Bool :=
  COPY_PATTERNS.any (fun p => p key)

/-- FORMAT_SPECIFIERS entry `%@` as a prefix matcher. -/
def fs1 : Str → Bool
  | '%' :: '@' :: _ => true
  | _ => false

/-- FORMAT_SPECIFIERS entry `%\d*\$?@` as a prefix matcher. -/
def fs2 : Str → Bool
  | '%' :: rest =>
      let r1 := rest.dropWhile Char.isDigit
      let r2 := if r1.head? = some '$' then r1.tail else r1
      r2.head? = some '@'
  | _ => false

/-- FORMAT_SPECIFIERS entry `%lld` as a prefix matcher. -/
def fs3 (s : Str) : Bool := "%lld".data.isPrefixOf s

/-- FORMAT_SPECIFIERS entry `%\d*\$?lld` as a prefix matcher. -/
def fs4 : Str → Bool
  | '%' :: rest =>
      let r1 := rest.dropWhile Char.isDigit
      let r2 := if r1.head? = some '$' then r1.tail else r1
      "lld".data.isPrefixOf r2
  | _ => false

/-- FORMAT_SPECIFIERS entry `%d` as a prefix matcher. -/
def fs5 (s : Str) : Bool := "%d".data.isPrefixOf s

/-- FORMAT_SPECIFIERS entry `%\d*\$?d` as a prefix matcher. -/
def fs6 : Str → Bool
  | '%' :: rest =>
      let r1 := rest.dropWhile Char.isDigit
      let r2 := if r1.head? = some '$' then r1.tail else r1
      r2.head? = some 'd'
  | _ => false

/-- FORMAT_SPECIFIERS entry `%f` as a prefix matcher. -/
def fs7 (s : Str) : Bool := "%f".data.isPrefixOf s

/-- FORMAT_SPECIFIERS entry `%\d*\.\d*f` as a prefix matcher. -/
def fs8 : Str → Bool
  | '%' :: rest =>
      let r1 := rest.dropWhile Char.isDigit
      match r1 with
      | '.' :: r2 => (r2.dropWhile Char.isDigit).head? = some 'f'
      | _ => false
  | _ => false

/-- FORMAT_SPECIFIERS entry `%%` as a prefix matcher. -/
def fs9 (s : Str) : Bool := "%%".data.isPrefixOf s

/-- The fixed list FORMAT_SPECIFIERS as prefix matchers. -/
def FORMAT_SPECIFIERS : List (Str → Bool) :=
  [fs1, fs2, fs3, fs4, fs5, fs6, fs7, fs8, fs9]

/-- `re.search` of a prefix matcher: does it match at some position? -/
def searchPrefixAny (m : Str → Bool) : Str → Bool
  | [] => m []
  | c :: rest => m (c :: rest) || searchPrefixAny m rest

/-- `LocalizationManager.has_format_specifiers`: some FORMAT_SPECIFIERS entry
found anywhere in the text (`re.search`). -/
def has_format_specifiers (text : Str) : Bool :=
  FORMAT_SPECIFIERS.any (fun p => searchPrefixAny p text)

/-!  The specifier codec: `_protect_format_specifiers` scans the text with the
regex `(%\d*\$?[@lld]+|%%)`.  `specAt` is the anchored matcher of that regex:
the digit run, the optional `$` and the `[@lld]+` run are pairwise disjoint
character classes, so greedy scanning without backtracking is exact; the `%%`
alternative applies only when the first alternative fails. -/

/-- Anchored match of `(%\d*\$?[@lld]+|%%)`; returns the matched string. -/
def specAt : Str → Option Str
  | '%' :: rest =>
      let ds := rest.takeWhile Char.isDigit
      let r1 := rest.dropWhile Char.isDigit
      let dol : Str := if r1.head? = some '$' then ['$'] else []
      let r2 := if r1.head? = some '$' then r1.tail else r1
      let ls := r2.takeWhile atSet
      if ls ≠ [] then some ('%' :: (ds ++ dol ++ ls))
      else
        match rest with
        | '%' :: _ => some ['%', '%']
        | _ => none
  | _ => none

/-- Left-to-right scan of `re.findall` for the specifier regex.  The first
argument counts characters still to skip after a match (its length minus one,
the first matched character being consumed structurally). -/
def findSpecsAux : Nat → Str → List Str
  | _ + 1, [] => []
  | k + 1, _ :: rest => findSpecsAux k rest
  | 0, [] => []
  | 0, c :: rest =>
      match specAt (c :: rest) with
      | some m => m :: findSpecsAux (m.length - 1) rest
      | none => findSpecsAux 0 rest

/-- `re.findall(r"(%\d*\$?[@lld]+|%%)", text)`. -/
def findSpecs (t : Str) : List Str := findSpecsAux 0 t

/-- Decimal digit character, `0 ≤ n ≤ 9`. -/
def digitChar : Nat → Char
  | 0 => '0' | 1 => '1' | 2 => '2' | 3 => '3' | 4 => '4'
  | 5 => '5' | 6 => '6' | 7 => '7' | 8 => '8' | _ => '9'

/-- Decimal digits of a natural number (fuelled; `natDigits` supplies enough fuel). -/
def natDigitsAux : Nat → Nat → List Char
  | 0, _ => []
  | f + 1, n => if n < 10 then [digitChar n] else natDigitsAux f (n / 10) ++ [digitChar (n % 10)]

/-- Decimal representation of a natural number, as in Python `str(i)`. -/
def natDigits (n : Nat) : List Char := natDigitsAux (n + 1) n

/-- The marker `f"⟨{i}⟩"` used by `_protect_format_specifiers`. -/
def marker (i : Nat) : Str := '⟨' :: natDigits i ++ ['⟩']

/-- Python `str.replace(pat, rep, 1)`: replace the first occurrence. -/
def replFirst (s pat rep : Str) : Str :=
  match s with
  | [] => if pat.isPrefixOf [] then rep else []
  | c :: rest =>
      if pat.isPrefixOf (c :: rest) then rep ++ (c :: rest).drop pat.length
      else c :: replFirst rest pat rep

/-- Python `str.replace(pat, rep)` (all occurrences, left to right,
non-overlapping).  The `Nat` argument counts characters of a matched pattern
still to be skipped. -/
def replAllAux (pat rep : Str) : Nat → Str → Str
  | 0, [] => if pat = [] then rep else []
  | 0, c :: rest =>
      if pat ≠ [] ∧ pat.isPrefixOf (c :: rest) then
        rep ++ replAllAux pat rep (pat.length - 1) rest
      else if pat = [] then rep ++ c :: replAllAux pat rep 0 rest
      else c :: replAllAux pat rep 0 rest
  | _ + 1, [] => []
  | k + 1, _ :: rest => replAllAux pat rep k rest

/-- Python `str.replace(pat, rep)`. -/
def replAll (s pat rep : Str) : Str := replAllAux pat rep 0 s

/-- The `for i, spec in enumerate(specifiers)` loop of
`_protect_format_specifiers`, starting at index `i`. -/
def protectLoop (t : Str) (i : Nat) : List Str → Str × List (Str × Str)
  | [] => (t, [])
  | s :: rest =>
      let ph := marker i
      let p := protectLoop (replFirst t s ph) (i + 1) rest
      (p.1, (ph, s) :: p.2)

/-- `LocalizationManager._protect_format_specifiers`. -/
def protect_format_specifiers (text : Str) : Str × List (Str × Str) :=
  let specifiers := findSpecs text
  if specifiers = [] then (text, [])
  else protectLoop text 0 specifiers

/-- `LocalizationManager._restore_format_specifiers`. -/
def restore_format_specifiers (text : Str) (placeholders : List (Str × Str)) : Str :=
  placeholders.foldl (fun result p => replAll result p.1 p.2) text

/-!  Proof infrastructure for the specifier codec: the scan of
`re.findall` decomposes the text into alternating gaps and matches; the
protected text replaces each match with its numbered marker. -/

/-- The original text of a gap/match decomposition. -/
def tailStr : List (Str × Str) → Str → Str
  | [], g => g
  | (g0, s0) :: tl, g => g0 ++ (s0 ++ tailStr tl g)

/-- The protected text of a decomposition, markers numbered from `i`. -/
def interleaveP (i : Nat) : List (Str × Str) → Str → Str
  | [], g => g
  | (g0, _) :: tl, g => g0 ++ (marker i ++ interleaveP (i + 1) tl g)

/-- The placeholder list of a decomposition, markers numbered from `i`. -/
def zipMarkers (i : Nat) : List (Str × Str) → List (Str × Str)
  | [] => []
  | (_, s0) :: tl => (marker i, s0) :: zipMarkers (i + 1) tl

/-- The shape of strings matched by the specifier regex
`(%\d*\$?[@lld]+|%%)`. -/
def isSpecStr (s : Str) : Prop :=
  (∃ ds dol ls, s = '%' :: (ds ++ dol ++ ls) ∧ (∀ c ∈ ds, Char.isDigit c = true) ∧
    (dol = [] ∨ dol = ['$']) ∧ ls ≠ [] ∧ (∀ c ∈ ls, atSet c = true)) ∨ s = ['%', '%']

/-- Soundness data of a scan decomposition: no match starts inside a gap, and
each recorded match is the anchored match at its own position. -/
def OKpairs : List (Str × Str) → Str → Prop
  | [], _ => True
  | (g0, s0) :: tl, g =>
      (∀ k, k < g0.length → specAt (g0.drop k ++ (s0 ++ tailStr tl g)) = none) ∧
      specAt (s0 ++ tailStr tl g) = some s0 ∧ OKpairs tl g

/-- The left-to-right scan of `re.findall` as a relation between a text and
its gap/match decomposition. -/
inductive SpecScan : Str → List (Str × Str) → Str → Prop
  | nil : SpecScan [] [] []
  | found {c : Char} {t m : Str} {ps : List (Str × Str)} {g : Str} :
      specAt (c :: t) = some m → SpecScan ((c :: t).drop m.length) ps g →
      SpecScan (c :: t) (([], m) :: ps) g
  | skipNil {c : Char} {t g : Str} :
      specAt (c :: t) = none → SpecScan t [] g → SpecScan (c :: t) [] (c :: g)
  | skipCons {c : Char} {t g0 s0 g : Str} {tl : List (Str × Str)} :
      specAt (c :: t) = none → SpecScan t ((g0, s0) :: tl) g →
      SpecScan (c :: t) ((c :: g0, s0) :: tl) g

/-- No specifier-shaped substring occurs anywhere in `P`. -/
def SafeP (P : Str) : Prop := ∀ s, isSpecStr s → ∀ k, ¬ s <+: P.drop k

/-- `P` is empty or ends with the closing marker bracket. -/
def EndsRB (P : Str) : Prop := P = [] ∨ ∃ Q, P = Q ++ ['⟩']

/-- No anchored match starts anywhere in the final gap. -/
def OKgap (g : Str) : Prop := ∀ k, specAt (g.drop k) = none

/-- Numeric value of a digit character. -/
def valDigit (c : Char) : Nat := c.toNat - 48

/-- Value of a decimal digit string, most significant digit first. -/
def digitsVal (s : Str) : Nat := s.foldl (fun a c => a * 10 + valDigit c) 0

/-!  Data model of the catalog.  A `stringUnit` JSON object carries a `state`
and a `value` (both optional) and possibly further keys (`extraSU`); a
per-language JSON object carries an optional `stringUnit` and possibly further
keys (`extraLD`); an entry carries an optional `localizations` dict (an absent
key reads as `{}` through `dict.get`) and possibly further keys (`extraSD`).
JSON dicts are association lists in key-insertion order. -/

structure StringUnit where
  state : Option Str
  value : Option Str
  extraSU : List (Str × Str)
deriving DecidableEq

structure LangData where
  stringUnit : Option StringUnit
  extraLD : List (Str × Str)
deriving DecidableEq

structure StringData where
  localizations : Option (List (Str × LangData))
  extraSD : List (Str × Str)
deriving DecidableEq

/-- Python `dict` read `d.get(k)` / `d[k]`: first entry with the key. -/
def dictGet {β : Type} : List (Str × β) → Str → Option β
  | [], _ => none
  | (k', v') :: rest, k => if k' = k then some v' else dictGet rest k

/-- Python `dict` assignment `d[k] = v`: overwrite in place, else append. -/
def dictSet {β : Type} : List (Str × β) → Str → β → List (Str × β)
  | [], k, v => [(k, v)]
  | (k', v') :: rest, k, v =>
      if k' = k then (k, v) :: rest else (k', v') :: dictSet rest k v

/-- The string `"translated"`. -/
def strTranslated : Str := "translated".data

/-- `LocalizationManager.SOURCE_LANGUAGE`. -/
def SOURCE_LANGUAGE : Str := "en".data

/-- `LocalizationManager.TARGET_LANGUAGES`. -/
def TARGET_LANGUAGES : List Str := ["it".data, "fr".data, "de".data, "es".data]

/-- `LocalizationManager.BATCH_SIZE`. -/
def BATCH_SIZE : Nat := 50

/-- `LocalizationManager.get_source_value`. -/
def get_source_value (key : Str) (string_data : StringData) : Str :=
  match dictGet (string_data.localizations.getD []) SOURCE_LANGUAGE with
  | some en_data =>
      match en_data.stringUnit with
      | some su => su.value.getD key
      | none => key
  | none => key

/-- `LocalizationManager.is_translated`. -/
def is_translated (string_data : StringData) (language : Str) : Bool :=
  match dictGet (string_data.localizations.getD []) language with
  | none => false
  | some lang_data =>
      match lang_data.stringUnit with
      | none => false
      | some su => su.state.getD [] = strTranslated

/-- `LocalizationManager._apply_translation`: unconditional upsert of the
variant for `lang` with a fresh two-field stringUnit object. -/
def apply_translation (string_data : StringData) (lang : Str) (value : Str) : StringData :=
  { string_data with
      localizations :=
        some (dictSet (string_data.localizations.getD []) lang
          { stringUnit := some { state := some strTranslated, value := some value, extraSU := [] }
            extraLD := [] }) }

/-- The catalog `strings` dict; `_apply_translation` on the entry object of
`key` is an update of the catalog at `key`. -/
def catalogApply (strings : List (Str × StringData)) (key lang value : Str) :
    List (Str × StringData) :=
  strings.map (fun p => if p.1 = key then (p.1, apply_translation p.2 lang value) else p)

/-- Python `key.strip()` is falsy iff the key is all whitespace. -/
def isBlankKey (k : Str) : Bool := k.all pyWhite

structure LocalizationStats where
  language : Str
  total_keys : Nat := 0
  translated : Nat := 0
  missing : Nat := 0
  patterns_copied : Nat := 0
  texts_translated : Nat := 0
  errors : Nat := 0
  missing_keys : List Str := []
deriving DecidableEq

/-- A fresh `LocalizationStats(language=lang)`. -/
def initStats (lang : Str) : LocalizationStats := { language := lang }

/-- Update the stats dict entry of `lang` (always present when called). -/
def updStats (d : List (Str × LocalizationStats)) (lang : Str)
    (f : LocalizationStats → LocalizationStats) : List (Str × LocalizationStats) :=
  match dictGet d lang with
  | some st => dictSet d lang (f st)
  | none => d

/-- The per-key, per-language stats update of `analyze` (`total_keys += 1`,
then `translated += 1` or `missing += 1` with the key recorded). -/
def analyzeUpd (sd : StringData) (key lang : Str) (st : LocalizationStats) : LocalizationStats :=
  if is_translated sd lang then
    { st with total_keys := st.total_keys + 1, translated := st.translated + 1 }
  else
    { st with total_keys := st.total_keys + 1, missing := st.missing + 1,
              missing_keys := st.missing_keys ++ [key] }

/-- The per-key loop body of `analyze`: blank keys are skipped, otherwise every
requested language is updated. -/
def analyzeKey (target_langs : List Str) (d : List (Str × LocalizationStats))
    (p : Str × StringData) : List (Str × LocalizationStats) :=
  if isBlankKey p.1 then d
  else target_langs.foldl (fun d2 lang => updStats d2 lang (analyzeUpd p.2 p.1 lang)) d

/-- `LocalizationManager.analyze`: per-key loop over the requested languages
(`languages or TARGET_LANGUAGES`); blank keys are skipped. -/
def analyze (strings : List (Str × StringData)) (languages : List Str) :
    List (Str × LocalizationStats) :=
  let target_langs := if languages = [] then TARGET_LANGUAGES else languages
  let stats0 := target_langs.foldl (fun d l => dictSet d l (initStats l)) []
  strings.foldl (analyzeKey target_langs) stats0

structure TranslationTask where
  key : Str
  source_value : Str
  is_pattern : Bool
  has_specifiers : Bool
deriving DecidableEq

/-- The external translation capability: one call per chunk; `none` models a
raised exception, a `none` item models a `None` result. -/
def Svc : Type := List Str → Str → Option (List (Option Str))

/-- The `lang_map` override of `_get_translator` (`pt-PT` → `pt`). -/
def mapLang (l : Str) : Str := if l = "pt-PT".data then "pt".data else l

/-- The `for i, result in enumerate(results)` restore loop of
`translate_batch`.  Walking past the end of `all_placeholders` with a truthy
result raises `IndexError` (modelled as `none`, caught by the enclosing
`except`); a falsy result short-circuits the `and` and is kept. -/
def applyRestore : List (Option Str) → List (List (Str × Str)) → Option (List (Option Str))
  | [], _ => some []
  | r :: rs, p :: ps =>
      match applyRestore rs ps with
      | none => none
      | some tail =>
          some ((match r with
                 | some s =>
                     if s ≠ [] ∧ p ≠ [] then some (restore_format_specifiers s p) else some s
                 | none => none) :: tail)
  | r :: rs, [] =>
      match r with
      | some s =>
          if s ≠ [] then none
          else (applyRestore rs []).map (fun tail => some s :: tail)
      | none => (applyRestore rs []).map (fun tail => none :: tail)

/-- `LocalizationManager.translate_batch`; `avail` is `TRANSLATOR_AVAILABLE`.
Any exception (a raising service call, or an `IndexError` in the restore
loop) yields `[None] * len(texts)`. -/
def translate_batch (avail : Bool) (svc : Svc) (texts : List Str) (target_lang : Str) :
    List (Option Str) :=
  if avail = false ∨ texts = [] then texts.map (fun _ => none)
  else
    match svc ((texts.map protect_format_specifiers).map Prod.fst) (mapLang target_lang) with
    | none => texts.map (fun _ => none)
    | some results =>
        match applyRestore results ((texts.map protect_format_specifiers).map Prod.snd) with
        | some final => final
        | none => texts.map (fun _ => none)

/-- Python slicing loop `for batch_idx in range(0, len, BATCH_SIZE)`: split a
list into chunks of size `B` (the `Nat` argument is the remaining capacity of
the chunk being collected, in reverse). -/
def chunksAux {α : Type} (B : Nat) : List α → Nat → List α → List (List α)
  | acc, _, [] => if acc.isEmpty then [] else [acc.reverse]
  | acc, k, x :: xs =>
      if k = 0 then acc.reverse :: chunksAux B [x] (B - 1) xs
      else chunksAux B (x :: acc) (k - 1) xs

/-- Chunks of size `B`. -/
def chunks {α : Type} (B : Nat) (l : List α) : List (List α) := chunksAux B [] B l

/-- Task collection of `process_missing_translations` for one language:
returns the increments of `total_keys`, `translated`, `missing` and the task
list in catalog order. -/
def collectTasks (lang : Str) : List (Str × StringData) → Nat × Nat × Nat × List TranslationTask
  | [] => (0, 0, 0, [])
  | (key, sd) :: rest =>
      let r := collectTasks lang rest
      if isBlankKey key then r
      else if is_translated sd lang then (r.1 + 1, r.2.1 + 1, r.2.2.1, r.2.2.2)
      else
        (r.1 + 1, r.2.1, r.2.2.1 + 1,
          { key := key
            source_value := get_source_value key sd
            is_pattern := is_pattern_only (get_source_value key sd)
            has_specifiers := has_format_specifiers (get_source_value key sd) } :: r.2.2.2)

/-- The per-pattern-task loop (`stats += 1`, then apply unless dry-run). -/
def copyLoop (lang : Str) (dry_run : Bool)
    (st : LocalizationStats × List (Str × StringData)) (tasks : List TranslationTask) :
    LocalizationStats × List (Str × StringData) :=
  tasks.foldl
    (fun p task =>
      ({ p.1 with patterns_copied := p.1.patterns_copied + 1 },
       if dry_run then p.2 else catalogApply p.2 task.key lang task.source_value))
    st

/-- The `for task, translation in zip(to_translate, all_translations)` loop:
truthy results count as translated, falsy results degrade to the
fallback-copy path (`errors += 1`, `patterns_copied += 1`, source copied). -/
def applyLoop (lang : Str) (dry_run : Bool)
    (st : LocalizationStats × List (Str × StringData))
    (pairs : List (TranslationTask × Option Str)) :
    LocalizationStats × List (Str × StringData) :=
  pairs.foldl
    (fun p tp =>
      match tp.2 with
      | some s =>
          if s ≠ [] then
            ({ p.1 with texts_translated := p.1.texts_translated + 1 },
             if dry_run then p.2 else catalogApply p.2 tp.1.key lang s)
          else
            ({ p.1 with errors := p.1.errors + 1, patterns_copied := p.1.patterns_copied + 1 },
             if dry_run then p.2 else catalogApply p.2 tp.1.key lang tp.1.source_value)
      | none =>
          ({ p.1 with errors := p.1.errors + 1, patterns_copied := p.1.patterns_copied + 1 },
           if dry_run then p.2 else catalogApply p.2 tp.1.key lang tp.1.source_value))
    st

/-- One language pass of `process_missing_translations`. -/
def processLang (avail : Bool) (svc : Svc) (dry_run : Bool) (lang : Str)
    (strings : List (Str × StringData)) (st : LocalizationStats) :
    LocalizationStats × List (Str × StringData) :=
  let c := collectTasks lang strings
  let tasks := c.2.2.2
  let st := { st with total_keys := st.total_keys + c.1, translated := st.translated + c.2.1,
                      missing := st.missing + c.2.2.1 }
  if tasks = [] then (st, strings)
  else
    let patterns := tasks.filter (fun t => t.is_pattern)
    let to_translate := tasks.filter (fun t => ¬ t.is_pattern)
    let p1 := copyLoop lang dry_run (st, strings) patterns
    if to_translate ≠ [] ∧ avail then
      let texts_to_translate := to_translate.map (fun t => t.source_value)
      let all_translations :=
        (chunks BATCH_SIZE texts_to_translate).foldl
          (fun acc batch => acc ++ translate_batch avail svc batch lang) []
      applyLoop lang dry_run p1 (to_translate.zip all_translations)
    else if to_translate ≠ [] then
      copyLoop lang dry_run p1 to_translate
    else p1

/-- `LocalizationManager.process_missing_translations`: the per-language stats
dict (`{lang: LocalizationStats(language=lang)}`) threaded through the
language loop together with the mutated catalog. -/
def process_missing_translations (avail : Bool) (svc : Svc)
    (strings : List (Str × StringData)) (languages : List Str) (dry_run : Bool) :
    List (Str × LocalizationStats) × List (Str × StringData) :=
  let target_langs := if languages = [] then TARGET_LANGUAGES else languages
  let stats0 := target_langs.foldl (fun d l => dictSet d l (initStats l)) []
  target_langs.foldl
    (fun acc lang =>
      let st := (dictGet acc.1 lang).getD (initStats lang)
      let r := processLang avail svc dry_run lang acc.2 st
      (dictSet acc.1 lang r.1, r.2))
    (stats0, strings)

/-- The interface contract of the translation collaborator (spec section 6):
same-length output whenever the call returns instead of raising. -/
def ConformingSvc (svc : Svc) : Prop :=
  ∀ ts l rs, svc ts l = some rs → rs.length = ts.length

/-- Agreement of two entries on the localizations of the languages in `ls` and
of the source language: all the per-language data a pipeline pass over one of
the languages of `ls` can read. -/
def agreeSD (ls : List Str) (sd sd2 : StringData) : Prop :=
  ∀ l, l ∈ ls ∨ l = SOURCE_LANGUAGE →
    dictGet (sd.localizations.getD []) l = dictGet (sd2.localizations.getD []) l

/-- Entry-wise agreement of two catalogs: same keys in the same order, and
entry-wise `agreeSD`. -/
def agreeCat (ls : List Str) : List (Str × StringData) → List (Str × StringData) → Prop
  | [], [] => True
  | p :: r, q :: s => p.1 = q.1 ∧ agreeSD ls p.2 q.2 ∧ agreeCat ls r s
  | _, _ => False

/-- Entry with a `de` stringUnit whose `state` is `translated` but which has no
`value` key at all. -/
def sdNoValue : StringData :=
  { localizations :=
      some [("de".data,
        { stringUnit := some { state := some strTranslated, value := none, extraSU := [] }
          extraLD := [] })]
    extraSD := [] }

-- ===================================================================
-- Theorems
-- ===================================================================

theorem lookup_dictSet_self {β : Type} (l : List (Str × β)) (k : Str) (v : β) :
    dictGet (dictSet l k v) k = some v := by
  induction l with
  | nil => simp [dictSet, dictGet]
  | cons p rest ih =>
    obtain ⟨k', v'⟩ := p
    by_cases h : k' = k
    · subst h; simp [dictSet, dictGet]
    · simp [dictSet, h, dictGet, ih]

theorem lookup_dictSet_ne {β : Type} (l : List (Str × β)) (k k' : Str) (v : β)
    (h : k' ≠ k) : dictGet (dictSet l k v) k' = dictGet l k' := by
  induction l with
  | nil => simp [dictSet, dictGet, Ne.symm h]
  | cons p rest ih =>
    obtain ⟨k0, v0⟩ := p
    by_cases h0 : k0 = k
    · subst h0
      simp [dictSet, dictGet, Ne.symm h]
    · simp [dictSet, if_neg h0, dictGet, ih]

theorem dictSet_dictSet_self {β : Type} (l : List (Str × β)) (k : Str) (v w : β) :
    dictSet (dictSet l k v) k w = dictSet l k w := by
  induction l with
  | nil => simp [dictSet]
  | cons p rest ih =>
    obtain ⟨k0, v0⟩ := p
    by_cases h0 : k0 = k
    · subst h0; simp [dictSet]
    · simp [dictSet, h0, ih]

/-- Claim C4 (counterexample): an entry whose `de` stringUnit has state
`translated` but no `value` key is reported as translated by
`is_translated`, although the claim counts a missing value as missing. -/
theorem C4_counterexample :
    is_translated sdNoValue "de".data = true ∧
      dictGet (sdNoValue.localizations.getD []) "de".data =
        some { stringUnit := some { state := some strTranslated, value := none, extraSU := [] }
               extraLD := [] } := by
  decide

/-- Claim C4 (amended): `is_translated` holds iff a variant object with a
`stringUnit` exists for the language and its `state` equals `translated`;
a missing language, a missing `stringUnit` or a non-`translated` state count
as missing, but the presence of a `value` is not checked. -/
theorem C4_satisfied_iff (sd : StringData) (lang : Str) :
    is_translated sd lang = true ↔
      ∃ ld su, dictGet (sd.localizations.getD []) lang = some ld ∧
        ld.stringUnit = some su ∧ su.state = some strTranslated := by
  constructor
  · intro h
    unfold is_translated at h
    cases h1 : dictGet (sd.localizations.getD []) lang with
    | none => rw [h1] at h; simp at h
    | some ld =>
      rw [h1] at h
      dsimp only at h
      cases h2 : ld.stringUnit with
      | none => rw [h2] at h; simp at h
      | some su =>
        rw [h2] at h
        dsimp only at h
        cases h3 : su.state with
        | none =>
          rw [h3] at h
          simp only [Option.getD_none, decide_eq_true_eq] at h
          exact absurd h (by decide)
        | some s =>
          rw [h3] at h
          simp only [Option.getD_some, decide_eq_true_eq] at h
          exact ⟨ld, su, rfl, h2, by rw [h3, h]⟩
  · rintro ⟨ld, su, h1, h2, h3⟩
    unfold is_translated
    rw [h1]
    dsimp only
    rw [h2]
    dsimp only
    rw [h3]
    decide

theorem is_pattern_only_of_mem (p : Str → Bool) {s : Str}
    (hmem : p ∈ COPY_PATTERNS) (h : p s = true) : is_pattern_only s = true :=
  List.any_eq_true.mpr ⟨p, hmem, h⟩

/-- Claim C5: `is_pattern_only` uses `re.match` prefix semantics — any string
beginning with `https://` (COPY_PATTERNS entry 8), and any string beginning
with `©2024` (entry 7), is classified as a pattern whatever trailing text
follows; in particular concrete strings with trailing text beyond the matched
prefix are classified as patterns. -/
theorem C5_prefix_semantics :
    (∀ s : Str, is_pattern_only ("https://".data ++ s) = true) ∧
      (∀ s : Str, is_pattern_only ('©' :: '2' :: '0' :: '2' :: '4' :: s) = true) ∧
      is_pattern_only "https://x.y extra trailing words".data = true ∧
      is_pattern_only "© 2024 Cash App. All rights reserved".data = true := by
  refine ⟨fun s => ?_, fun s => ?_, by decide, by decide⟩
  · refine is_pattern_only_of_mem pat8 (by simp [COPY_PATTERNS]) ?_
    have : "https://".data.isPrefixOf ("https://".data ++ s) = true := by
      rw [List.isPrefixOf_iff_prefix]
      exact List.prefix_append _ _
    simp [pat8, this]
  · refine is_pattern_only_of_mem pat7 (by simp [COPY_PATTERNS]) ?_
    simp [pat7, copSet, digitsSearchNoNL, fourDigitsAt]

/-- Claim C8: `_apply_translation` is idempotent, and after applying it the
variant is reported translated and stores exactly the given value. -/
theorem C8_idempotent (sd : StringData) (L v : Str) :
    apply_translation (apply_translation sd L v) L v = apply_translation sd L v ∧
      is_translated (apply_translation sd L v) L = true ∧
      dictGet ((apply_translation sd L v).localizations.getD []) L =
        some { stringUnit := some { state := some strTranslated, value := some v, extraSU := [] }
               extraLD := [] } := by
  refine ⟨?_, ?_, ?_⟩
  · simp [apply_translation, dictSet_dictSet_self]
  · simp [is_translated, apply_translation, lookup_dictSet_self]
  · simp [apply_translation, lookup_dictSet_self]

/-- Claim C10: `_apply_translation` leaves every field of the entry outside
`localizations` unchanged, leaves the variant of every other language
unchanged, and stores for `L` exactly a fresh `{state: translated, value}`
variant (prior extra fields of the variant are discarded, not merged). -/
theorem C10_frame (sd : StringData) (L v L' : Str) (h : L' ≠ L) :
    (apply_translation sd L v).extraSD = sd.extraSD ∧
      dictGet ((apply_translation sd L v).localizations.getD []) L' =
        dictGet (sd.localizations.getD []) L' ∧
      dictGet ((apply_translation sd L v).localizations.getD []) L =
        some { stringUnit := some { state := some strTranslated, value := some v, extraSU := [] }
               extraLD := [] } := by
  refine ⟨rfl, ?_, ?_⟩
  · simp [apply_translation, lookup_dictSet_ne _ _ _ _ h]
  · simp [apply_translation, lookup_dictSet_self]

/-- Witness for C10 at a concrete entry and languages. -/
theorem C10_witness :
    "de".data ≠ "fr".data ∧
      ((apply_translation sdNoValue "fr".data "Bonjour".data).extraSD = sdNoValue.extraSD ∧
        dictGet ((apply_translation sdNoValue "fr".data "Bonjour".data).localizations.getD [])
            "de".data =
          dictGet (sdNoValue.localizations.getD []) "de".data ∧
        dictGet ((apply_translation sdNoValue "fr".data "Bonjour".data).localizations.getD [])
            "fr".data =
          some { stringUnit := some { state := some strTranslated, value := some "Bonjour".data,
                                      extraSU := [] }
                 extraLD := [] }) :=
  ⟨by decide, C10_frame sdNoValue "fr".data "Bonjour".data "de".data (by decide)⟩

/-- Claim C6 (counterexample): `"%l"` contains no format specifier according
to `has_format_specifiers`, yet `_protect_format_specifiers` is not the
identity on it (its own scan pattern `%\d*\$?[@lld]+` matches `%l`). -/
theorem C6_counterexample :
    has_format_specifiers "%l".data = false ∧
      protect_format_specifiers "%l".data ≠ ("%l".data, []) := by
  decide

/-- Claim C6 (amended): when the protection scan itself finds no specifier,
`_protect_format_specifiers` returns the text unchanged with an empty
placeholder list, and `_restore_format_specifiers` with an empty placeholder
list is always the identity.  (`has_format_specifiers t = false` does not
imply this, see the counterexample.) -/
theorem C6_protect_identity (t : Str) (h : findSpecs t = []) :
    protect_format_specifiers t = (t, []) ∧ restore_format_specifiers t [] = t :=
  ⟨by simp [protect_format_specifiers, h], rfl⟩

/-- Witness for C6 on a concrete specifier-free text. -/
theorem C6_witness :
    findSpecs "Hello world".data = [] ∧
      (protect_format_specifiers "Hello world".data = ("Hello world".data, []) ∧
        restore_format_specifiers "Hello world".data [] = "Hello world".data) :=
  ⟨by decide, C6_protect_identity "Hello world".data (by decide)⟩

theorem analyzeKey_single (L : Str) (st : LocalizationStats)
    (h : st.total_keys = st.translated + st.missing) (strings : List (Str × StringData)) :
    ∃ st', strings.foldl (analyzeKey [L]) [(L, st)] = [(L, st')] ∧
      st'.total_keys = st'.translated + st'.missing := by
  induction strings generalizing st with
  | nil => exact ⟨st, rfl, h⟩
  | cons p rest ih =>
    by_cases hb : isBlankKey p.1
    · have : analyzeKey [L] [(L, st)] p = [(L, st)] := by simp [analyzeKey, hb]
      rw [List.foldl_cons, this]
      exact ih st h
    · have hstep : analyzeKey [L] [(L, st)] p = [(L, analyzeUpd p.2 p.1 L st)] := by
        simp [analyzeKey, hb, updStats, dictGet, dictSet]
      rw [List.foldl_cons, hstep]
      refine ih (analyzeUpd p.2 p.1 L st) ?_
      unfold analyzeUpd
      by_cases ht : is_translated p.2 L <;> simp [ht] <;> omega

/-- Claim C7: for every catalog and language `L`, the stats entry of
`analyze([L])` satisfies `total_keys = translated + missing`, and the same
holds after any `_apply_translation` mutation of the catalog. -/
theorem C7_total_split (strings : List (Str × StringData)) (L : Str) :
    (∃ st, dictGet (analyze strings [L]) L = some st ∧
        st.total_keys = st.translated + st.missing) ∧
      ∀ k lg v, ∃ st, dictGet (analyze (catalogApply strings k lg v) [L]) L = some st ∧
        st.total_keys = st.translated + st.missing := by
  have main : ∀ strings0 : List (Str × StringData),
      ∃ st, dictGet (analyze strings0 [L]) L = some st ∧
        st.total_keys = st.translated + st.missing := by
    intro strings0
    unfold analyze
    simp only [List.cons_ne_self, if_neg]
    obtain ⟨st', hfold, hsum⟩ :=
      analyzeKey_single L (initStats L) (by simp [initStats]) strings0
    have h0 : List.foldl (fun d l => dictSet d l (initStats l)) [] [L] = [(L, initStats L)] := by
      simp [dictSet]
    refine ⟨st', ?_, hsum⟩
    simp only [reduceIte, h0, hfold]
    simp [dictGet]
  exact ⟨main strings, fun k lg v => main (catalogApply strings k lg v)⟩

theorem chunksAux_join {α : Type} (B : Nat) :
    ∀ (xs acc : List α) (k : Nat), (chunksAux B acc k xs).flatten = acc.reverse ++ xs := by
  intro xs
  induction xs with
  | nil =>
    intro acc k
    cases acc <;> simp [chunksAux]
  | cons x xs ih =>
    intro acc k
    by_cases hk : k = 0
    · simp [chunksAux, hk, ih]
    · simp [chunksAux, hk, ih]

theorem chunks_join {α : Type} (B : Nat) (l : List α) : (chunks B l).flatten = l := by
  simp [chunks, chunksAux_join]

theorem applyRestore_length :
    ∀ (rs : List (Option Str)) (ps : List (List (Str × Str))) (final : List (Option Str)),
      applyRestore rs ps = some final → final.length = rs.length := by
  intro rs
  induction rs with
  | nil => intro ps final h; simp [applyRestore] at h; simp [← h]
  | cons r rest ih =>
    intro ps final h
    cases ps with
    | cons p ps' =>
      simp only [applyRestore] at h
      cases hrec : applyRestore rest ps' with
      | none => rw [hrec] at h; exact absurd h (by simp)
      | some tail =>
        rw [hrec] at h
        simp only [Option.some_inj] at h
        subst h
        simp [ih ps' tail hrec]
    | nil =>
      simp only [applyRestore] at h
      cases r with
      | some s =>
        dsimp only at h
        by_cases hs : s ≠ []
        · rw [if_pos hs] at h; exact absurd h (by simp)
        · rw [if_neg hs] at h
          cases hrec : applyRestore rest [] with
          | none => rw [hrec] at h; exact absurd h (by simp)
          | some tail =>
            rw [hrec] at h
            simp only [Option.map_some', Option.some_inj] at h
            rw [← h]
            simp [ih [] tail hrec]
      | none =>
        dsimp only at h
        cases hrec : applyRestore rest [] with
        | none => rw [hrec] at h; exact absurd h (by simp)
        | some tail =>
          rw [hrec] at h
          simp only [Option.map_some', Option.some_inj] at h
          rw [← h]
          simp [ih [] tail hrec]

theorem translate_batch_length (avail : Bool) (svc : Svc) (texts : List Str) (lang : Str)
    (hsvc : ConformingSvc svc) :
    (translate_batch avail svc texts lang).length = texts.length := by
  unfold translate_batch
  by_cases h0 : avail = false ∨ texts = []
  · simp [h0]
  · rw [if_neg h0]
    cases hcall : svc ((texts.map protect_format_specifiers).map Prod.fst) (mapLang lang) with
    | none => simp
    | some results =>
      dsimp only
      cases hres : applyRestore results ((texts.map protect_format_specifiers).map Prod.snd) with
      | none => simp
      | some final =>
        dsimp only
        have h1 : results.length = texts.length := by
          have := hsvc _ _ _ hcall
          simpa using this
        rw [applyRestore_length results _ final hres, h1]

theorem translate_fold_length (avail : Bool) (svc : Svc) (lang : Str)
    (hsvc : ConformingSvc svc) :
    ∀ (bs : List (List Str)) (acc : List (Option Str)),
      (bs.foldl (fun a b => a ++ translate_batch avail svc b lang) acc).length =
        acc.length + (bs.map List.length).sum := by
  intro bs
  induction bs with
  | nil => intro acc; simp
  | cons b bs ih =>
    intro acc
    rw [List.foldl_cons, ih]
    simp [translate_batch_length avail svc b lang hsvc]
    omega

theorem collect_missing_len (lang : Str) (strings : List (Str × StringData)) :
    (collectTasks lang strings).2.2.1 = (collectTasks lang strings).2.2.2.length := by
  induction strings with
  | nil => simp [collectTasks]
  | cons p rest ih =>
    obtain ⟨key, sd⟩ := p
    by_cases hb : isBlankKey key
    · simp [collectTasks, hb, ih]
    · by_cases ht : is_translated sd lang
      · simp [collectTasks, hb, ht, ih]
      · simp [collectTasks, hb, ht, ih]

theorem filter_split_len {α : Type} (p : α → Bool) (l : List α) :
    (l.filter p).length + (l.filter (fun t => ¬ p t)).length = l.length := by
  induction l with
  | nil => simp
  | cons x xs ih =>
    by_cases hx : p x
    · simp [List.filter_cons, hx, ← ih]; omega
    · simp [List.filter_cons, hx, ← ih]; omega

theorem copyLoop_stats (lang : Str) (dry_run : Bool) (tasks : List TranslationTask) :
    ∀ (st : LocalizationStats) (c : List (Str × StringData)),
      (copyLoop lang dry_run (st, c) tasks).1.texts_translated = st.texts_translated ∧
      (copyLoop lang dry_run (st, c) tasks).1.patterns_copied =
        st.patterns_copied + tasks.length ∧
      (copyLoop lang dry_run (st, c) tasks).1.missing = st.missing := by
  induction tasks with
  | nil => intro st c; simp [copyLoop]
  | cons t ts ih =>
    intro st c
    have step : copyLoop lang dry_run (st, c) (t :: ts) =
        copyLoop lang dry_run
          ({ st with patterns_copied := st.patterns_copied + 1 },
           if dry_run then c else catalogApply c t.key lang t.source_value) ts := by
      simp [copyLoop]
    rw [step]
    obtain ⟨h1, h2, h3⟩ := ih { st with patterns_copied := st.patterns_copied + 1 }
      (if dry_run then c else catalogApply c t.key lang t.source_value)
    refine ⟨by rw [h1], ?_, by rw [h3]⟩
    rw [h2]
    show st.patterns_copied + 1 + ts.length = st.patterns_copied + (ts.length + 1)
    omega

theorem applyLoop_stats (lang : Str) (dry_run : Bool)
    (pairs : List (TranslationTask × Option Str)) :
    ∀ (st : LocalizationStats) (c : List (Str × StringData)),
      (applyLoop lang dry_run (st, c) pairs).1.texts_translated +
        (applyLoop lang dry_run (st, c) pairs).1.patterns_copied =
        st.texts_translated + st.patterns_copied + pairs.length ∧
      (applyLoop lang dry_run (st, c) pairs).1.missing = st.missing := by
  induction pairs with
  | nil => intro st c; simp [applyLoop]
  | cons tp rest ih =>
    intro st c
    cases htr : tp.2 with
    | some s =>
      by_cases hs : s ≠ []
      · have step : applyLoop lang dry_run (st, c) (tp :: rest) =
            applyLoop lang dry_run
              ({ st with texts_translated := st.texts_translated + 1 },
               if dry_run then c else catalogApply c tp.1.key lang s) rest := by
          simp [applyLoop, htr, hs]
        rw [step]
        obtain ⟨h1, h2⟩ := ih { st with texts_translated := st.texts_translated + 1 }
          (if dry_run then c else catalogApply c tp.1.key lang s)
        constructor
        · rw [h1]
          show st.texts_translated + 1 + st.patterns_copied + rest.length =
            st.texts_translated + st.patterns_copied + (rest.length + 1)
          omega
        · rw [h2]
      · have step : applyLoop lang dry_run (st, c) (tp :: rest) =
            applyLoop lang dry_run
              ({ st with errors := st.errors + 1, patterns_copied := st.patterns_copied + 1 },
               if dry_run then c else catalogApply c tp.1.key lang tp.1.source_value) rest := by
          have hs2 : s = [] := by push_neg at hs; exact hs
          simp [applyLoop, htr, hs2]
        rw [step]
        obtain ⟨h1, h2⟩ :=
          ih { st with errors := st.errors + 1, patterns_copied := st.patterns_copied + 1 }
            (if dry_run then c else catalogApply c tp.1.key lang tp.1.source_value)
        constructor
        · rw [h1]
          show st.texts_translated + (st.patterns_copied + 1) + rest.length =
            st.texts_translated + st.patterns_copied + (rest.length + 1)
          omega
        · rw [h2]
    | none =>
      have step : applyLoop lang dry_run (st, c) (tp :: rest) =
          applyLoop lang dry_run
            ({ st with errors := st.errors + 1, patterns_copied := st.patterns_copied + 1 },
             if dry_run then c else catalogApply c tp.1.key lang tp.1.source_value) rest := by
        simp [applyLoop, htr]
      rw [step]
      obtain ⟨h1, h2⟩ :=
        ih { st with errors := st.errors + 1, patterns_copied := st.patterns_copied + 1 }
          (if dry_run then c else catalogApply c tp.1.key lang tp.1.source_value)
      constructor
      · rw [h1]
        show st.texts_translated + (st.patterns_copied + 1) + rest.length =
          st.texts_translated + st.patterns_copied + (rest.length + 1)
        omega
      · rw [h2]

theorem processLang_stats_inv (avail : Bool) (svc : Svc) (dry_run : Bool) (lang : Str)
    (strings : List (Str × StringData)) (st : LocalizationStats)
    (hsvc : ConformingSvc svc)
    (h : st.texts_translated + st.patterns_copied = st.missing) :
    (processLang avail svc dry_run lang strings st).1.texts_translated +
      (processLang avail svc dry_run lang strings st).1.patterns_copied =
      (processLang avail svc dry_run lang strings st).1.missing := by
  have hml := collect_missing_len lang strings
  unfold processLang
  generalize hcol : collectTasks lang strings = c at hml ⊢
  dsimp only
  by_cases ht : c.2.2.2 = []
  · rw [if_pos ht]
    dsimp only
    rw [ht] at hml
    simp at hml
    simp [hml]
    omega
  · rw [if_neg ht]
    have hsplit := filter_split_len (fun t : TranslationTask => t.is_pattern) c.2.2.2
    obtain ⟨hc1, hc2, hc3⟩ :=
      copyLoop_stats lang dry_run (c.2.2.2.filter (fun t => t.is_pattern))
        { st with total_keys := st.total_keys + c.1, translated := st.translated + c.2.1,
                  missing := st.missing + c.2.2.1 } strings
    by_cases hbr : c.2.2.2.filter (fun t => ¬ t.is_pattern) ≠ [] ∧ avail = true
    · rw [if_pos hbr]
      obtain ⟨ha1, ha2⟩ :=
        applyLoop_stats lang dry_run
          ((c.2.2.2.filter (fun t => ¬ t.is_pattern)).zip
            ((chunks BATCH_SIZE
                ((c.2.2.2.filter (fun t => ¬ t.is_pattern)).map (fun t => t.source_value))).foldl
              (fun acc batch => acc ++ translate_batch avail svc batch lang) []))
          (copyLoop lang dry_run
            ({ st with total_keys := st.total_keys + c.1, translated := st.translated + c.2.1,
                       missing := st.missing + c.2.2.1 }, strings)
            (c.2.2.2.filter (fun t => t.is_pattern))).1
          (copyLoop lang dry_run
            ({ st with total_keys := st.total_keys + c.1, translated := st.translated + c.2.1,
                       missing := st.missing + c.2.2.1 }, strings)
            (c.2.2.2.filter (fun t => t.is_pattern))).2
      have hzip :
          ((c.2.2.2.filter (fun t => ¬ t.is_pattern)).zip
            ((chunks BATCH_SIZE
                ((c.2.2.2.filter (fun t => ¬ t.is_pattern)).map (fun t => t.source_value))).foldl
              (fun acc batch => acc ++ translate_batch avail svc batch lang) [])).length =
            (c.2.2.2.filter (fun t => ¬ t.is_pattern)).length := by
        rw [List.length_zip]
        have hlen := translate_fold_length avail svc lang hsvc
          (chunks BATCH_SIZE
            ((c.2.2.2.filter (fun t => ¬ t.is_pattern)).map (fun t => t.source_value))) []
        have hjoin : ((chunks BATCH_SIZE
            ((c.2.2.2.filter (fun t => ¬ t.is_pattern)).map (fun t => t.source_value))).map
              List.length).sum =
            ((c.2.2.2.filter (fun t => ¬ t.is_pattern)).map (fun t => t.source_value)).length := by
          rw [← List.length_flatten, chunks_join]
        rw [hjoin] at hlen
        simp at hlen
        simp [hlen]
      simp only [Prod.mk.eta] at ha1 ha2
      rw [hzip] at ha1
      simp at hc1 hc2 hc3
      omega
    · rw [if_neg hbr]
      by_cases hne : c.2.2.2.filter (fun t => ¬ t.is_pattern) ≠ []
      · rw [if_pos hne]
        generalize hp1 : copyLoop lang dry_run
            ({ st with total_keys := st.total_keys + c.1, translated := st.translated + c.2.1,
                       missing := st.missing + c.2.2.1 }, strings)
            (c.2.2.2.filter (fun t => t.is_pattern)) = p1 at hc1 hc2 hc3 ⊢
        obtain ⟨p1s, p1c⟩ := p1
        obtain ⟨hd1, hd2, hd3⟩ :=
          copyLoop_stats lang dry_run (c.2.2.2.filter (fun t => ¬ t.is_pattern)) p1s p1c
        simp at hc1 hc2 hc3
        omega
      · rw [if_neg hne]
        generalize hp1 : copyLoop lang dry_run
            ({ st with total_keys := st.total_keys + c.1, translated := st.translated + c.2.1,
                       missing := st.missing + c.2.2.1 }, strings)
            (c.2.2.2.filter (fun t => t.is_pattern)) = p1 at hc1 hc2 hc3 ⊢
        obtain ⟨p1s, p1c⟩ := p1
        push_neg at hne
        rw [hne] at hsplit
        simp only [List.length_nil, Nat.add_zero] at hsplit
        simp at hc1 hc2 hc3
        dsimp only
        omega

theorem dictGet_dictSet_cases {β : Type} (l : List (Str × β)) (k k' : Str) (v : β) (st : β)
    (h : dictGet (dictSet l k v) k' = some st) : st = v ∨ dictGet l k' = some st := by
  by_cases hk : k' = k
  · subst hk
    rw [lookup_dictSet_self] at h
    injection h with h2
    exact Or.inl h2.symm
  · rw [lookup_dictSet_ne _ _ _ _ hk] at h
    exact Or.inr h

theorem stats_init_inv (P : LocalizationStats → Prop) (hP : ∀ l, P (initStats l)) :
    ∀ (langs : List Str) (d : List (Str × LocalizationStats)),
      (∀ k st, dictGet d k = some st → P st) →
      ∀ k st, dictGet (langs.foldl (fun d l => dictSet d l (initStats l)) d) k = some st → P st := by
  intro langs
  induction langs with
  | nil => intro d hd k st h; exact hd k st h
  | cons l ls ih =>
    intro d hd k st h
    refine ih (dictSet d l (initStats l)) ?_ k st h
    intro k' st' h'
    rcases dictGet_dictSet_cases d l k' (initStats l) st' h' with heq | hrest
    · rw [heq]; exact hP l
    · exact hd k' st' hrest

/-- Claim C2 (amended): for every language in the stats returned by a full
pipeline run with a length-conforming service, `texts_translated +
patterns_copied` equals the number of keys that were missing at collection
time (failed items are counted in both `errors` and `patterns_copied`, so
adding `errors` as well double-counts them). -/
theorem C2_accounting (avail : Bool) (svc : Svc) (strings : List (Str × StringData))
    (languages : List Str) (dry_run : Bool) (lang : Str) (st : LocalizationStats)
    (hsvc : ConformingSvc svc)
    (h : dictGet (process_missing_translations avail svc strings languages dry_run).1 lang =
      some st) :
    st.texts_translated + st.patterns_copied = st.missing := by
  classical
  revert h
  unfold process_missing_translations
  dsimp only
  have main :
      ∀ (langs : List Str) (d : List (Str × LocalizationStats)) (c : List (Str × StringData)),
        (∀ k s, dictGet d k = some s → s.texts_translated + s.patterns_copied = s.missing) →
        ∀ k s, dictGet ((langs.foldl
            (fun acc lang =>
              ((dictSet acc.1 lang
                (processLang avail svc dry_run lang acc.2
                  ((dictGet acc.1 lang).getD (initStats lang))).1),
               (processLang avail svc dry_run lang acc.2
                  ((dictGet acc.1 lang).getD (initStats lang))).2))
            (d, c)).1) k = some s →
          s.texts_translated + s.patterns_copied = s.missing := by
    intro langs
    induction langs with
    | nil => intro d c hd k s h; exact hd k s h
    | cons l ls ih =>
      intro d c hd k s h
      rw [List.foldl_cons] at h
      refine ih _ _ ?_ k s h
      intro k' s' h'
      rcases dictGet_dictSet_cases _ _ _ _ _ h' with heq | hrest
      · subst heq
        refine processLang_stats_inv avail svc dry_run l c _ hsvc ?_
        cases hget : dictGet d l with
        | none => simp [hget, initStats]
        | some s0 => simp only [hget, Option.getD_some]; exact hd l s0 hget
      · exact hd k' s' hrest
  intro h
  refine main _ _ _ ?_ lang st h
  exact stats_init_inv (fun s => s.texts_translated + s.patterns_copied = s.missing)
    (fun l => by simp [initStats]) _ [] (by intro k s h0; simp [dictGet] at h0)

/-- Claim C2 (counterexample): one missing text key and a raising service give
`texts_translated = 0`, `patterns_copied = 1`, `errors = 1` for `missing = 1`,
so the claimed sum `texts_translated + patterns_copied + errors` is 2, not the
number of missing keys. -/
theorem C2_counterexample :
    dictGet (process_missing_translations true (fun _ _ => none)
        [("Welcome".data, { localizations := none, extraSD := [] })] ["fr".data] false).1
        "fr".data =
      some { language := "fr".data, total_keys := 1, translated := 0, missing := 1,
             patterns_copied := 1, texts_translated := 0, errors := 1, missing_keys := [] } ∧
      ¬ (0 + 1 + 1 = 1) := by
  exact ⟨by decide, by decide⟩

/-- Witness for C2 on a concrete run (translator unavailable, one missing key:
the key is accounted as a pattern copy). -/
theorem C2_witness :
    ConformingSvc (fun _ _ => none) ∧
      (dictGet (process_missing_translations false (fun _ _ => none)
          [("Hi".data, { localizations := none, extraSD := [] })] ["fr".data] false).1
          "fr".data =
        some { language := "fr".data, total_keys := 1, translated := 0, missing := 1,
               patterns_copied := 1, texts_translated := 0, errors := 0, missing_keys := [] } ∧
        (0 : Nat) + 1 = 1) := by
  refine ⟨fun ts l rs h0 => absurd h0 (by simp), by decide, ?_⟩
  exact C2_accounting false (fun _ _ => none)
    [("Hi".data, { localizations := none, extraSD := [] })] ["fr".data] false "fr".data
    { language := "fr".data, total_keys := 1, translated := 0, missing := 1,
      patterns_copied := 1, texts_translated := 0, errors := 0, missing_keys := [] }
    (fun ts l rs h0 => absurd h0 (by simp)) (by decide)

theorem is_translated_apply (sd : StringData) (L v : Str) :
    is_translated (apply_translation sd L v) L = true := by
  simp [is_translated, apply_translation, lookup_dictSet_self]

theorem is_translated_apply_ne (sd : StringData) (L v L' : Str) (h : L' ≠ L) :
    is_translated (apply_translation sd L v) L' = is_translated sd L' := by
  simp [is_translated, apply_translation, lookup_dictSet_ne _ _ _ _ h]

theorem stored_value_apply (sd : StringData) (L v : Str) :
    dictGet ((apply_translation sd L v).localizations.getD []) L =
      some { stringUnit := some { state := some strTranslated, value := some v, extraSU := [] }
             extraLD := [] } := by
  simp [apply_translation, lookup_dictSet_self]

theorem get_source_value_apply_ne (k : Str) (sd : StringData) (L v : Str)
    (h : L ≠ SOURCE_LANGUAGE) :
    get_source_value k (apply_translation sd L v) = get_source_value k sd := by
  unfold get_source_value
  rw [show (apply_translation sd L v).localizations.getD [] =
    dictSet (sd.localizations.getD []) L
      { stringUnit := some { state := some strTranslated, value := some v, extraSU := [] }
        extraLD := [] } from rfl]
  rw [lookup_dictSet_ne _ _ _ _ (Ne.symm h)]

theorem processLang_fail_single (svc : Svc) (L k : Str) (sd : StringData)
    (st : LocalizationStats)
    (hsvc : svc [(protect_format_specifiers (get_source_value k sd)).1] (mapLang L) = none ∨
      svc [(protect_format_specifiers (get_source_value k sd)).1] (mapLang L) =
        some [some []])
    (hb : isBlankKey k = false)
    (h1 : is_translated sd L = false)
    (hp : is_pattern_only (get_source_value k sd) = false) :
    processLang true svc false L [(k, sd)] st =
      ({ st with total_keys := st.total_keys + 1, missing := st.missing + 1,
                 patterns_copied := st.patterns_copied + 1, errors := st.errors + 1 },
       [(k, apply_translation sd L (get_source_value k sd))]) := by
  have hcol : collectTasks L [(k, sd)] =
      (1, 0, 1, [{ key := k, source_value := get_source_value k sd,
                   is_pattern := is_pattern_only (get_source_value k sd),
                   has_specifiers := has_format_specifiers (get_source_value k sd) }]) := by
    simp [collectTasks, hb, h1]
  have hchunks : chunks BATCH_SIZE [get_source_value k sd] = [[get_source_value k sd]] := by
    simp [chunks, BATCH_SIZE, chunksAux]
  have htb : translate_batch true svc [get_source_value k sd] L = [none] ∨
      translate_batch true svc [get_source_value k sd] L = [some []] := by
    unfold translate_batch
    rcases hsvc with hs | hs
    · rw [if_neg (by simp)]
      simp only [List.map_cons, List.map_nil] at hs ⊢
      rw [hs]
      exact Or.inl rfl
    · rw [if_neg (by simp)]
      simp only [List.map_cons, List.map_nil] at hs ⊢
      rw [hs]
      right
      simp [applyRestore]
  have hfilt1 : List.filter (fun t : TranslationTask => t.is_pattern)
      [{ key := k, source_value := get_source_value k sd,
         is_pattern := is_pattern_only (get_source_value k sd),
         has_specifiers := has_format_specifiers (get_source_value k sd) }] = [] := by
    simp [hp]
  have hfilt2 : List.filter (fun t : TranslationTask => ¬ t.is_pattern)
      [{ key := k, source_value := get_source_value k sd,
         is_pattern := is_pattern_only (get_source_value k sd),
         has_specifiers := has_format_specifiers (get_source_value k sd) }] =
      [{ key := k, source_value := get_source_value k sd,
         is_pattern := is_pattern_only (get_source_value k sd),
         has_specifiers := has_format_specifiers (get_source_value k sd) }] := by
    simp [hp]
  unfold processLang
  rw [hcol]
  dsimp only
  rw [if_neg (by simp)]
  rw [hfilt1, hfilt2]
  rw [if_pos (by simp)]
  simp only [List.map_cons, List.map_nil]
  rw [hchunks]
  simp only [List.foldl_cons, List.foldl_nil, List.nil_append]
  rcases htb with htb | htb <;>
    rw [htb] <;>
    · simp only [List.zip_cons_cons, List.zip_nil_right, List.zip_nil_left, applyLoop,
        List.foldl_cons, List.foldl_nil, copyLoop, catalogApply, List.map_cons, List.map_nil]
      simp [apply_translation]

/-- Claim C3: with a service that raises (or returns an empty string) on every
call, a two-language run over one missing text key never aborts: each language
pass degrades to the fallback path (`errors` and `patterns_copied` up by one,
`texts_translated` zero), continues to the next language, and the key ends up
with its source value stored verbatim in state `translated` for both
languages. -/
theorem C3_failure_fallback (k L1 L2 : Str) (sd : StringData) (svc : Svc)
    (hsvc : ∀ ts l, svc ts l = none ∨ svc ts l = some (ts.map (fun _ => some ([] : Str))))
    (hb : isBlankKey k = false)
    (h1 : is_translated sd L1 = false)
    (h2 : is_translated sd L2 = false)
    (hp : is_pattern_only (get_source_value k sd) = false)
    (hne : L1 ≠ L2)
    (hsrc : L1 ≠ SOURCE_LANGUAGE) :
    process_missing_translations true svc [(k, sd)] [L1, L2] false =
      ([(L1, { language := L1, total_keys := 1, translated := 0, missing := 1,
               patterns_copied := 1, texts_translated := 0, errors := 1, missing_keys := [] }),
        (L2, { language := L2, total_keys := 1, translated := 0, missing := 1,
               patterns_copied := 1, texts_translated := 0, errors := 1, missing_keys := [] })],
       [(k, apply_translation (apply_translation sd L1 (get_source_value k sd)) L2
              (get_source_value k sd))]) ∧
      is_translated (apply_translation (apply_translation sd L1 (get_source_value k sd)) L2
        (get_source_value k sd)) L1 = true ∧
      is_translated (apply_translation (apply_translation sd L1 (get_source_value k sd)) L2
        (get_source_value k sd)) L2 = true := by
  have hsd1 : get_source_value k (apply_translation sd L1 (get_source_value k sd)) =
      get_source_value k sd := get_source_value_apply_ne k sd L1 _ hsrc
  have hit2 : is_translated (apply_translation sd L1 (get_source_value k sd)) L2 = false := by
    rw [is_translated_apply_ne sd L1 _ L2 (Ne.symm hne)]; exact h2
  have hpass1 := processLang_fail_single svc L1 k sd (initStats L1)
    (hsvc [(protect_format_specifiers (get_source_value k sd)).1] (mapLang L1))
    hb h1 hp
  have hpass2 := processLang_fail_single svc L2 k
    (apply_translation sd L1 (get_source_value k sd)) (initStats L2)
    (by rw [hsd1]
        exact hsvc [(protect_format_specifiers (get_source_value k sd)).1] (mapLang L2))
    hb hit2 (by rw [hsd1]; exact hp)
  refine ⟨?_, ?_, ?_⟩
  · have e1 : dictSet ([] : List (Str × LocalizationStats)) L1 (initStats L1) =
        [(L1, initStats L1)] := rfl
    have e2 : dictSet [(L1, initStats L1)] L2 (initStats L2) =
        [(L1, initStats L1), (L2, initStats L2)] := by simp [dictSet, hne]
    have e3 : dictGet [(L1, initStats L1), (L2, initStats L2)] L1 = some (initStats L1) := by
      simp [dictGet]
    have e4 : dictGet (dictSet [(L1, initStats L1), (L2, initStats L2)] L1
        ({ initStats L1 with total_keys := (initStats L1).total_keys + 1,
                             missing := (initStats L1).missing + 1,
                             patterns_copied := (initStats L1).patterns_copied + 1,
                             errors := (initStats L1).errors + 1 })) L2 =
        some (initStats L2) := by
      rw [lookup_dictSet_ne _ _ _ _ (Ne.symm hne)]
      simp [dictGet, hne]
    unfold process_missing_translations
    rw [if_neg (by simp)]
    simp only [List.foldl_cons, List.foldl_nil]
    rw [e1, e2, e3]
    simp only [Option.getD_some]
    rw [hpass1]
    dsimp only
    rw [e4]
    simp only [Option.getD_some]
    rw [hpass2]
    dsimp only
    rw [hsd1]
    simp [dictSet, dictGet, initStats, hne]
  · rw [is_translated_apply_ne _ L2 _ L1 hne]
    exact is_translated_apply sd L1 (get_source_value k sd)
  · exact is_translated_apply _ L2 _

/-- Witness for C3: a concrete one-key catalog, languages fr and de, and a
service that raises on every call. -/
theorem C3_witness :
    (∀ ts l, (fun (_ : List Str) (_ : Str) => (none : Option (List (Option Str)))) ts l = none ∨
        (fun (_ : List Str) (_ : Str) => (none : Option (List (Option Str)))) ts l =
          some (ts.map (fun _ => some ([] : Str)))) ∧
      isBlankKey "Welcome back".data = false ∧
      is_translated { localizations := none, extraSD := [] } "fr".data = false ∧
      is_translated { localizations := none, extraSD := [] } "de".data = false ∧
      is_pattern_only
        (get_source_value "Welcome back".data { localizations := none, extraSD := [] }) = false ∧
      "fr".data ≠ "de".data ∧
      "fr".data ≠ SOURCE_LANGUAGE ∧
      (process_missing_translations true (fun _ _ => none)
          [("Welcome back".data, { localizations := none, extraSD := [] })]
          ["fr".data, "de".data] false =
        ([("fr".data, { language := "fr".data, total_keys := 1, translated := 0, missing := 1,
                        patterns_copied := 1, texts_translated := 0, errors := 1,
                        missing_keys := [] }),
          ("de".data, { language := "de".data, total_keys := 1, translated := 0, missing := 1,
                        patterns_copied := 1, texts_translated := 0, errors := 1,
                        missing_keys := [] })],
         [("Welcome back".data,
           apply_translation
             (apply_translation { localizations := none, extraSD := [] } "fr".data
               (get_source_value "Welcome back".data { localizations := none, extraSD := [] }))
             "de".data
             (get_source_value "Welcome back".data { localizations := none, extraSD := [] }))]) ∧
        is_translated
          (apply_translation
            (apply_translation { localizations := none, extraSD := [] } "fr".data
              (get_source_value "Welcome back".data { localizations := none, extraSD := [] }))
            "de".data
            (get_source_value "Welcome back".data { localizations := none, extraSD := [] }))
          "fr".data = true ∧
        is_translated
          (apply_translation
            (apply_translation { localizations := none, extraSD := [] } "fr".data
              (get_source_value "Welcome back".data { localizations := none, extraSD := [] }))
            "de".data
            (get_source_value "Welcome back".data { localizations := none, extraSD := [] }))
          "de".data = true) :=
  ⟨fun _ _ => Or.inl rfl, by decide, by decide, by decide, by decide, by decide, by decide,
    C3_failure_fallback "Welcome back".data "fr".data "de".data
      { localizations := none, extraSD := [] } (fun _ _ => none)
      (fun _ _ => Or.inl rfl) (by decide) (by decide) (by decide) (by decide) (by decide)
      (by decide)⟩

theorem agreeSD_mono {ls ls' : List Str} {sd sd2 : StringData}
    (hsub : ∀ l, l ∈ ls' → l ∈ ls) (h : agreeSD ls sd sd2) : agreeSD ls' sd sd2 := by
  intro l hl
  rcases hl with hl | hl
  · exact h l (Or.inl (hsub l hl))
  · exact h l (Or.inr hl)

theorem agreeCat_mono {ls ls' : List Str} (hsub : ∀ l, l ∈ ls' → l ∈ ls) :
    ∀ (c c2 : List (Str × StringData)), agreeCat ls c c2 → agreeCat ls' c c2 := by
  intro c
  induction c with
  | nil =>
    intro c2 h
    cases c2 with
    | nil => trivial
    | cons q s => simp [agreeCat] at h
  | cons p r ih =>
    intro c2 h
    cases c2 with
    | nil => simp [agreeCat] at h
    | cons q s =>
      obtain ⟨h1, h2, h3⟩ := h
      exact ⟨h1, agreeSD_mono hsub h2, ih s h3⟩

theorem agreeCat_refl (ls : List Str) : ∀ c, agreeCat ls c c := by
  intro c
  induction c with
  | nil => trivial
  | cons p r ih => exact ⟨rfl, fun l _ => rfl, ih⟩

theorem is_translated_agree {ls : List Str} {sd sd2 : StringData} (h : agreeSD ls sd sd2)
    {lang : Str} (hm : lang ∈ ls) : is_translated sd lang = is_translated sd2 lang := by
  unfold is_translated
  rw [h lang (Or.inl hm)]

theorem gsv_agree {ls : List Str} {sd sd2 : StringData} (h : agreeSD ls sd sd2) (k : Str) :
    get_source_value k sd = get_source_value k sd2 := by
  unfold get_source_value
  rw [h SOURCE_LANGUAGE (Or.inr rfl)]

theorem collect_congr {ls : List Str} {lang : Str} (hm : lang ∈ ls) :
    ∀ (c c2 : List (Str × StringData)), agreeCat ls c c2 →
      collectTasks lang c = collectTasks lang c2 := by
  intro c
  induction c with
  | nil =>
    intro c2 h
    cases c2 with
    | nil => rfl
    | cons q s => simp [agreeCat] at h
  | cons p r ih =>
    intro c2 h
    cases c2 with
    | nil => simp [agreeCat] at h
    | cons q s =>
      obtain ⟨h1, h2, h3⟩ := h
      obtain ⟨k1, sd1⟩ := p
      obtain ⟨k2, sd2⟩ := q
      simp only at h1
      subst h1
      unfold collectTasks
      rw [ih s h3, is_translated_agree h2 hm, gsv_agree h2 k1]

theorem agreeSD_apply {ls : List Str} {sd sd2 : StringData} (h : agreeSD ls sd sd2)
    {lang : Str} (hnot : lang ∉ ls) (hsrc : lang ≠ SOURCE_LANGUAGE) (v : Str) :
    agreeSD ls (apply_translation sd lang v) sd2 := by
  intro l hl
  have hne : l ≠ lang := by
    rcases hl with hl | hl
    · exact fun he => hnot (he ▸ hl)
    · exact fun he => hsrc (by rw [← he, hl])
  unfold apply_translation
  dsimp only
  rw [Option.getD_some, lookup_dictSet_ne _ _ _ _ hne]
  exact h l hl

theorem catalogApply_agree {ls : List Str} {lang : Str} (hnot : lang ∉ ls)
    (hsrc : lang ≠ SOURCE_LANGUAGE) (key v : Str) :
    ∀ (c c2 : List (Str × StringData)), agreeCat ls c c2 →
      agreeCat ls (catalogApply c key lang v) c2 := by
  intro c
  induction c with
  | nil =>
    intro c2 h
    cases c2 with
    | nil => trivial
    | cons q s => simp [agreeCat] at h
  | cons p r ih =>
    intro c2 h
    cases c2 with
    | nil => simp [agreeCat] at h
    | cons q s =>
      obtain ⟨h1, h2, h3⟩ := h
      refine ⟨?_, ?_, ih s h3⟩
      · by_cases hk : p.1 = key
        · simp only [catalogApply, List.map_cons, if_pos hk]
          exact h1
        · simp only [catalogApply, List.map_cons, if_neg hk]
          exact h1
      · by_cases hk : p.1 = key
        · simp only [catalogApply, List.map_cons, if_pos hk]
          exact agreeSD_apply h2 hnot hsrc v
        · simp only [catalogApply, List.map_cons, if_neg hk]
          exact h2

theorem copyLoop_dry_cat (lang : Str) (tasks : List TranslationTask) :
    ∀ (st : LocalizationStats) (c : List (Str × StringData)),
      (copyLoop lang true (st, c) tasks).2 = c := by
  induction tasks with
  | nil => intro st c; rfl
  | cons t ts ih =>
    intro st c
    have step : copyLoop lang true (st, c) (t :: ts) =
        copyLoop lang true ({ st with patterns_copied := st.patterns_copied + 1 }, c) ts := by
      simp [copyLoop]
    rw [step]
    exact ih _ c

theorem applyLoop_dry_cat (lang : Str) (pairs : List (TranslationTask × Option Str)) :
    ∀ (st : LocalizationStats) (c : List (Str × StringData)),
      (applyLoop lang true (st, c) pairs).2 = c := by
  induction pairs with
  | nil => intro st c; rfl
  | cons tp rest ih =>
    intro st c
    cases htr : tp.2 with
    | some s =>
      by_cases hs : s ≠ []
      · have step : applyLoop lang true (st, c) (tp :: rest) =
            applyLoop lang true
              ({ st with texts_translated := st.texts_translated + 1 }, c) rest := by
          simp [applyLoop, htr, hs]
        rw [step]; exact ih _ c
      · have hs2 : s = [] := by push_neg at hs; exact hs
        have step : applyLoop lang true (st, c) (tp :: rest) =
            applyLoop lang true
              ({ st with errors := st.errors + 1,
                         patterns_copied := st.patterns_copied + 1 }, c) rest := by
          simp [applyLoop, htr, hs2]
        rw [step]; exact ih _ c
    | none =>
      have step : applyLoop lang true (st, c) (tp :: rest) =
          applyLoop lang true
            ({ st with errors := st.errors + 1,
                       patterns_copied := st.patterns_copied + 1 }, c) rest := by
        simp [applyLoop, htr]
      rw [step]; exact ih _ c

theorem processLang_dry_cat (avail : Bool) (svc : Svc) (lang : Str)
    (c : List (Str × StringData)) (st : LocalizationStats) :
    (processLang avail svc true lang c st).2 = c := by
  unfold processLang
  dsimp only
  by_cases ht : (collectTasks lang c).2.2.2 = []
  · rw [if_pos ht]
  · rw [if_neg ht]
    by_cases hbr : (collectTasks lang c).2.2.2.filter (fun t => ¬ t.is_pattern) ≠ [] ∧
        avail = true
    · rw [if_pos hbr]
      rw [applyLoop_dry_cat lang _ _ _]
      exact copyLoop_dry_cat lang _ _ c
    · rw [if_neg hbr]
      by_cases hne : (collectTasks lang c).2.2.2.filter (fun t => ¬ t.is_pattern) ≠ []
      · rw [if_pos hne]
        rw [copyLoop_dry_cat lang _ _ _]
        exact copyLoop_dry_cat lang _ _ c
      · rw [if_neg hne]
        exact copyLoop_dry_cat lang _ _ c

theorem copyLoop_congr (lang : Str) (tasks : List TranslationTask) :
    ∀ (d1 d2 : Bool) (st1 st2 : LocalizationStats) (c1 c2 : List (Str × StringData)),
      st1 = st2 → (copyLoop lang d1 (st1, c1) tasks).1 = (copyLoop lang d2 (st2, c2) tasks).1 := by
  induction tasks with
  | nil => intro d1 d2 st1 st2 c1 c2 h; exact h
  | cons t ts ih =>
    intro d1 d2 st1 st2 c1 c2 h
    subst h
    have s1 : copyLoop lang d1 (st1, c1) (t :: ts) =
        copyLoop lang d1 ({ st1 with patterns_copied := st1.patterns_copied + 1 },
          if d1 then c1 else catalogApply c1 t.key lang t.source_value) ts := by
      simp [copyLoop]
    have s2 : copyLoop lang d2 (st1, c2) (t :: ts) =
        copyLoop lang d2 ({ st1 with patterns_copied := st1.patterns_copied + 1 },
          if d2 then c2 else catalogApply c2 t.key lang t.source_value) ts := by
      simp [copyLoop]
    rw [s1, s2]
    exact ih d1 d2 _ _ _ _ rfl

theorem applyLoop_congr (lang : Str) (pairs : List (TranslationTask × Option Str)) :
    ∀ (d1 d2 : Bool) (st1 st2 : LocalizationStats) (c1 c2 : List (Str × StringData)),
      st1 = st2 →
      (applyLoop lang d1 (st1, c1) pairs).1 = (applyLoop lang d2 (st2, c2) pairs).1 := by
  induction pairs with
  | nil => intro d1 d2 st1 st2 c1 c2 h; exact h
  | cons tp rest ih =>
    intro d1 d2 st1 st2 c1 c2 h
    subst h
    cases htr : tp.2 with
    | some s =>
      by_cases hs : s ≠ []
      · have s1 : applyLoop lang d1 (st1, c1) (tp :: rest) =
            applyLoop lang d1 ({ st1 with texts_translated := st1.texts_translated + 1 },
              if d1 then c1 else catalogApply c1 tp.1.key lang s) rest := by
          simp [applyLoop, htr, hs]
        have s2 : applyLoop lang d2 (st1, c2) (tp :: rest) =
            applyLoop lang d2 ({ st1 with texts_translated := st1.texts_translated + 1 },
              if d2 then c2 else catalogApply c2 tp.1.key lang s) rest := by
          simp [applyLoop, htr, hs]
        rw [s1, s2]
        exact ih d1 d2 _ _ _ _ rfl
      · have hs2 : s = [] := by push_neg at hs; exact hs
        have s1 : applyLoop lang d1 (st1, c1) (tp :: rest) =
            applyLoop lang d1 ({ st1 with errors := st1.errors + 1,
                                          patterns_copied := st1.patterns_copied + 1 },
              if d1 then c1 else catalogApply c1 tp.1.key lang tp.1.source_value) rest := by
          simp [applyLoop, htr, hs2]
        have s2 : applyLoop lang d2 (st1, c2) (tp :: rest) =
            applyLoop lang d2 ({ st1 with errors := st1.errors + 1,
                                          patterns_copied := st1.patterns_copied + 1 },
              if d2 then c2 else catalogApply c2 tp.1.key lang tp.1.source_value) rest := by
          simp [applyLoop, htr, hs2]
        rw [s1, s2]
        exact ih d1 d2 _ _ _ _ rfl
    | none =>
      have s1 : applyLoop lang d1 (st1, c1) (tp :: rest) =
          applyLoop lang d1 ({ st1 with errors := st1.errors + 1,
                                        patterns_copied := st1.patterns_copied + 1 },
            if d1 then c1 else catalogApply c1 tp.1.key lang tp.1.source_value) rest := by
        simp [applyLoop, htr]
      have s2 : applyLoop lang d2 (st1, c2) (tp :: rest) =
          applyLoop lang d2 ({ st1 with errors := st1.errors + 1,
                                        patterns_copied := st1.patterns_copied + 1 },
            if d2 then c2 else catalogApply c2 tp.1.key lang tp.1.source_value) rest := by
        simp [applyLoop, htr]
      rw [s1, s2]
      exact ih d1 d2 _ _ _ _ rfl

theorem processLang_stats_congr (avail : Bool) (svc : Svc) (d1 d2 : Bool) (lang : Str)
    (st : LocalizationStats) (c1 c2 : List (Str × StringData))
    (hcol : collectTasks lang c1 = collectTasks lang c2) :
    (processLang avail svc d1 lang c1 st).1 = (processLang avail svc d2 lang c2 st).1 := by
  unfold processLang
  rw [hcol]
  dsimp only
  by_cases ht : (collectTasks lang c2).2.2.2 = []
  · rw [if_pos ht, if_pos ht]
  · rw [if_neg ht, if_neg ht]
    by_cases hbr : (collectTasks lang c2).2.2.2.filter (fun t => ¬ t.is_pattern) ≠ [] ∧
        avail = true
    · rw [if_pos hbr, if_pos hbr]
      exact applyLoop_congr lang _ d1 d2 _ _ _ _
        (copyLoop_congr lang _ d1 d2 _ _ c1 c2 rfl)
    · rw [if_neg hbr, if_neg hbr]
      by_cases hne : (collectTasks lang c2).2.2.2.filter (fun t => ¬ t.is_pattern) ≠ []
      · rw [if_pos hne, if_pos hne]
        exact copyLoop_congr lang _ d1 d2 _ _ _ _
          (copyLoop_congr lang _ d1 d2 _ _ c1 c2 rfl)
      · rw [if_neg hne, if_neg hne]
        exact copyLoop_congr lang _ d1 d2 _ _ c1 c2 rfl

theorem copyLoop_cat_agree {ls : List Str} {lang : Str} (hnot : lang ∉ ls)
    (hsrc : lang ≠ SOURCE_LANGUAGE) (tasks : List TranslationTask) :
    ∀ (st : LocalizationStats) (c c2 : List (Str × StringData)), agreeCat ls c c2 →
      agreeCat ls (copyLoop lang false (st, c) tasks).2 c2 := by
  induction tasks with
  | nil => intro st c c2 h; exact h
  | cons t ts ih =>
    intro st c c2 h
    have step : copyLoop lang false (st, c) (t :: ts) =
        copyLoop lang false ({ st with patterns_copied := st.patterns_copied + 1 },
          catalogApply c t.key lang t.source_value) ts := by
      simp [copyLoop]
    rw [step]
    exact ih _ _ c2 (catalogApply_agree hnot hsrc t.key t.source_value c c2 h)

theorem applyLoop_cat_agree {ls : List Str} {lang : Str} (hnot : lang ∉ ls)
    (hsrc : lang ≠ SOURCE_LANGUAGE) (pairs : List (TranslationTask × Option Str)) :
    ∀ (st : LocalizationStats) (c c2 : List (Str × StringData)), agreeCat ls c c2 →
      agreeCat ls (applyLoop lang false (st, c) pairs).2 c2 := by
  induction pairs with
  | nil => intro st c c2 h; exact h
  | cons tp rest ih =>
    intro st c c2 h
    cases htr : tp.2 with
    | some s =>
      by_cases hs : s ≠ []
      · have step : applyLoop lang false (st, c) (tp :: rest) =
            applyLoop lang false ({ st with texts_translated := st.texts_translated + 1 },
              catalogApply c tp.1.key lang s) rest := by
          simp [applyLoop, htr, hs]
        rw [step]
        exact ih _ _ c2 (catalogApply_agree hnot hsrc tp.1.key s c c2 h)
      · have hs2 : s = [] := by push_neg at hs; exact hs
        have step : applyLoop lang false (st, c) (tp :: rest) =
            applyLoop lang false ({ st with errors := st.errors + 1,
                                            patterns_copied := st.patterns_copied + 1 },
              catalogApply c tp.1.key lang tp.1.source_value) rest := by
          simp [applyLoop, htr, hs2]
        rw [step]
        exact ih _ _ c2 (catalogApply_agree hnot hsrc tp.1.key tp.1.source_value c c2 h)
    | none =>
      have step : applyLoop lang false (st, c) (tp :: rest) =
          applyLoop lang false ({ st with errors := st.errors + 1,
                                          patterns_copied := st.patterns_copied + 1 },
            catalogApply c tp.1.key lang tp.1.source_value) rest := by
        simp [applyLoop, htr]
      rw [step]
      exact ih _ _ c2 (catalogApply_agree hnot hsrc tp.1.key tp.1.source_value c c2 h)

theorem processLang_cat_agree {ls : List Str} {lang : Str} (hnot : lang ∉ ls)
    (hsrc : lang ≠ SOURCE_LANGUAGE) (avail : Bool) (svc : Svc)
    (st : LocalizationStats) (c c2 : List (Str × StringData)) (hag : agreeCat ls c c2) :
    agreeCat ls (processLang avail svc false lang c st).2 c2 := by
  unfold processLang
  dsimp only
  by_cases ht : (collectTasks lang c).2.2.2 = []
  · rw [if_pos ht]; exact hag
  · rw [if_neg ht]
    by_cases hbr : (collectTasks lang c).2.2.2.filter (fun t => ¬ t.is_pattern) ≠ [] ∧
        avail = true
    · rw [if_pos hbr]
      exact applyLoop_cat_agree hnot hsrc _ _ _ c2
        (copyLoop_cat_agree hnot hsrc _ _ c c2 hag)
    · rw [if_neg hbr]
      by_cases hne : (collectTasks lang c).2.2.2.filter (fun t => ¬ t.is_pattern) ≠ []
      · rw [if_pos hne]
        exact copyLoop_cat_agree hnot hsrc _ _ _ c2
          (copyLoop_cat_agree hnot hsrc _ _ c c2 hag)
      · rw [if_neg hne]
        exact copyLoop_cat_agree hnot hsrc _ _ c c2 hag

theorem process_fold_congr (avail : Bool) (svc : Svc) :
    ∀ (langs : List Str), langs.Nodup → (∀ l ∈ langs, l ≠ SOURCE_LANGUAGE) →
      ∀ (d : List (Str × LocalizationStats)) (c c2 : List (Str × StringData)),
        agreeCat langs c c2 →
        (langs.foldl (fun acc lang =>
            let st := (dictGet acc.1 lang).getD (initStats lang)
            let r := processLang avail svc false lang acc.2 st
            (dictSet acc.1 lang r.1, r.2)) (d, c)).1 =
        (langs.foldl (fun acc lang =>
            let st := (dictGet acc.1 lang).getD (initStats lang)
            let r := processLang avail svc true lang acc.2 st
            (dictSet acc.1 lang r.1, r.2)) (d, c2)).1 := by
  intro langs
  induction langs with
  | nil => intro _ _ d c c2 _; rfl
  | cons l ls ih =>
    intro hnd hen d c c2 hag
    have hnotl : l ∉ ls := (List.nodup_cons.mp hnd).1
    have hndls : ls.Nodup := (List.nodup_cons.mp hnd).2
    have hsrcl : l ≠ SOURCE_LANGUAGE := hen l (by simp)
    have henls : ∀ x ∈ ls, x ≠ SOURCE_LANGUAGE := fun x hx => hen x (by simp [hx])
    rw [List.foldl_cons, List.foldl_cons]
    dsimp only
    have hst : (processLang avail svc false l c ((dictGet d l).getD (initStats l))).1 =
        (processLang avail svc true l c2 ((dictGet d l).getD (initStats l))).1 :=
      processLang_stats_congr avail svc false true l _ c c2
        (collect_congr (by simp) c c2 hag)
    rw [hst, processLang_dry_cat avail svc l c2 ((dictGet d l).getD (initStats l))]
    exact ih hndls henls _ _ c2
      (processLang_cat_agree hnotl hsrcl avail svc _ c c2
        (agreeCat_mono (fun x hx => by simp [hx]) c c2 hag))

theorem process_fold_dry_cat (avail : Bool) (svc : Svc) :
    ∀ (langs : List Str) (d : List (Str × LocalizationStats))
      (c : List (Str × StringData)),
      (langs.foldl (fun acc lang =>
          let st := (dictGet acc.1 lang).getD (initStats lang)
          let r := processLang avail svc true lang acc.2 st
          (dictSet acc.1 lang r.1, r.2)) (d, c)).2 = c := by
  intro langs
  induction langs with
  | nil => intro d c; rfl
  | cons l ls ih =>
    intro d c
    rw [List.foldl_cons]
    dsimp only
    rw [processLang_dry_cat avail svc l c ((dictGet d l).getD (initStats l))]
    exact ih _ c

/-- Claim C9 (amended): for a language list without duplicates and not
containing the source language, a dry run leaves the catalog untouched and
returns exactly the statistics of a real run with the same inputs and service
responses.  (A duplicated language, or the source language in the list, breaks
the counter identity, see the counterexample.) -/
theorem C9_dry_run (avail : Bool) (svc : Svc) (strings : List (Str × StringData))
    (languages : List Str) (hnd : languages.Nodup) (hen : SOURCE_LANGUAGE ∉ languages) :
    (process_missing_translations avail svc strings languages true).2 = strings ∧
      (process_missing_translations avail svc strings languages true).1 =
        (process_missing_translations avail svc strings languages false).1 := by
  have htl_nd : (if languages = [] then TARGET_LANGUAGES else languages).Nodup := by
    by_cases hl : languages = []
    · rw [if_pos hl]; decide
    · rw [if_neg hl]; exact hnd
  have htl_en : ∀ l ∈ (if languages = [] then TARGET_LANGUAGES else languages),
      l ≠ SOURCE_LANGUAGE := by
    by_cases hl : languages = []
    · rw [if_pos hl]; decide
    · rw [if_neg hl]
      intro l hm he
      exact hen (he ▸ hm)
  constructor
  · unfold process_missing_translations
    dsimp only
    exact process_fold_dry_cat avail svc _ _ strings
  · unfold process_missing_translations
    dsimp only
    exact (process_fold_congr avail svc _ htl_nd htl_en _ strings strings
      (agreeCat_refl _ strings)).symm

/-- Claim C9 (counterexample): with the duplicated language list
`["fr", "fr"]` the dry-run statistics differ from the real-run statistics on
the same inputs (the real first pass satisfies the key, the dry first pass
does not). -/
theorem C9_counterexample :
    (process_missing_translations true
        (fun ts _ => some (ts.map (fun _ => some "Bonjour".data)))
        [("Welcome".data, { localizations := none, extraSD := [] })]
        ["fr".data, "fr".data] true).1 ≠
      (process_missing_translations true
        (fun ts _ => some (ts.map (fun _ => some "Bonjour".data)))
        [("Welcome".data, { localizations := none, extraSD := [] })]
        ["fr".data, "fr".data] false).1 := by
  decide

/-- Witness for C9 on a concrete single-language run. -/
theorem C9_witness :
    (["fr".data] : List Str).Nodup ∧ SOURCE_LANGUAGE ∉ (["fr".data] : List Str) ∧
      ((process_missing_translations true
          (fun ts _ => some (ts.map (fun _ => some "Bonjour".data)))
          [("Welcome".data, { localizations := none, extraSD := [] })] ["fr".data] true).2 =
        [("Welcome".data, { localizations := none, extraSD := [] })] ∧
        (process_missing_translations true
          (fun ts _ => some (ts.map (fun _ => some "Bonjour".data)))
          [("Welcome".data, { localizations := none, extraSD := [] })] ["fr".data] true).1 =
        (process_missing_translations true
          (fun ts _ => some (ts.map (fun _ => some "Bonjour".data)))
          [("Welcome".data, { localizations := none, extraSD := [] })] ["fr".data] false).1) :=
  ⟨by decide, by decide,
    C9_dry_run true (fun ts _ => some (ts.map (fun _ => some "Bonjour".data)))
      [("Welcome".data, { localizations := none, extraSD := [] })] ["fr".data]
      (by decide) (by decide)⟩

theorem digit_char_ne {c : Char} (h : c.isDigit = true) :
    c ≠ '⟨' ∧ c ≠ '⟩' ∧ c ≠ '%' ∧ c ≠ '$' := by
  refine ⟨?_, ?_, ?_, ?_⟩ <;> intro he <;> rw [he] at h <;> exact absurd h (by decide)

theorem atSet_cases {c : Char} (h : atSet c = true) : c = '@' ∨ c = 'l' ∨ c = 'd' := by
  simpa [atSet] using h

theorem atSet_char_ne {c : Char} (h : atSet c = true) :
    c ≠ '⟨' ∧ c ≠ '⟩' ∧ c ≠ '%' ∧ c ≠ '$' ∧ c.isDigit = false := by
  rcases atSet_cases h with he | he | he <;> subst he <;> exact ⟨by decide, by decide, by decide,
    by decide, by decide⟩

theorem isSpecStr_shape {s : Str} (h : isSpecStr s) : ∃ t, s = '%' :: t := by
  rcases h with ⟨ds, dol, ls, hs, _⟩ | hs
  · exact ⟨_, hs⟩
  · exact ⟨['%'], hs⟩

theorem isSpecStr_ne_nil {s : Str} (h : isSpecStr s) : s ≠ [] := by
  obtain ⟨t, ht⟩ := isSpecStr_shape h
  simp [ht]

theorem isSpecStr_chars {s : Str} (h : isSpecStr s) : '⟨' ∉ s ∧ '⟩' ∉ s := by
  rcases h with ⟨ds, dol, ls, hs, hds, hdol, _, hls⟩ | hs
  · subst hs
    constructor <;> intro hmem <;> simp only [List.mem_cons, List.mem_append] at hmem
    · rcases hmem with he | (hd | hd) | hl
      · exact absurd he (by decide)
      · exact (digit_char_ne (hds _ hd)).1 rfl
      · rcases hdol with h0 | h0 <;> subst h0
        · simp at hd
        · rw [List.mem_singleton] at hd; exact absurd hd (by decide)
      · exact (atSet_char_ne (hls _ hl)).1 rfl
    · rcases hmem with he | (hd | hd) | hl
      · exact absurd he (by decide)
      · exact (digit_char_ne (hds _ hd)).2.1 rfl
      · rcases hdol with h0 | h0 <;> subst h0
        · simp at hd
        · rw [List.mem_singleton] at hd; exact absurd hd (by decide)
      · exact (atSet_char_ne (hls _ hl)).2.1 rfl
  · subst hs
    exact ⟨by decide, by decide⟩

theorem takeWhile_exact {p : Char → Bool} {ds u : Str} (hds : ∀ c ∈ ds, p c = true)
    (hu : ∀ c l', u = c :: l' → p c = false) :
    (ds ++ u).takeWhile p = ds ∧ (ds ++ u).dropWhile p = u := by
  induction ds with
  | nil =>
    cases hu2 : u with
    | nil => simp
    | cons c l' =>
      have := hu c l' hu2
      simp [List.takeWhile, List.dropWhile, this]
  | cons d ds ih =>
    have hd : p d = true := hds d (by simp)
    obtain ⟨ih1, ih2⟩ := ih (fun c hc => hds c (by simp [hc]))
    simp [List.takeWhile_cons_of_pos hd, List.dropWhile_cons_of_pos hd, ih1, ih2]

theorem specAt_cons_percent (rest : Str) :
    specAt ('%' :: rest) =
      (if (if (rest.dropWhile Char.isDigit).head? = some '$' then
            (rest.dropWhile Char.isDigit).tail
          else rest.dropWhile Char.isDigit).takeWhile atSet ≠ [] then
        some ('%' :: (rest.takeWhile Char.isDigit ++
          (if (rest.dropWhile Char.isDigit).head? = some '$' then ['$'] else []) ++
          (if (rest.dropWhile Char.isDigit).head? = some '$' then
            (rest.dropWhile Char.isDigit).tail
          else rest.dropWhile Char.isDigit).takeWhile atSet))
      else
        match rest with
        | '%' :: _ => some ['%', '%']
        | _ => none) := rfl

theorem specAt_isSpecStr {u m : Str} (h : specAt u = some m) : isSpecStr m := by
  rcases u with _ | ⟨c, rest⟩
  · rw [show specAt [] = none from rfl] at h
    exact absurd h (by simp)
  · by_cases hc : c = '%'
    · subst hc
      rw [specAt_cons_percent] at h
      by_cases hcond : (if (rest.dropWhile Char.isDigit).head? = some '$' then
          (rest.dropWhile Char.isDigit).tail
        else rest.dropWhile Char.isDigit).takeWhile atSet ≠ []
      · rw [if_pos hcond] at h
        injection h with h
        subst h
        refine Or.inl ⟨rest.takeWhile Char.isDigit,
          (if (rest.dropWhile Char.isDigit).head? = some '$' then ['$'] else []),
          _, rfl, fun c hc => List.mem_takeWhile_imp hc, ?_, hcond,
          fun c hc => List.mem_takeWhile_imp hc⟩
        split
        · exact Or.inr rfl
        · exact Or.inl rfl
      · rw [if_neg hcond] at h
        rcases rest with _ | ⟨c2, rest2⟩
        · exact absurd h (by simp)
        · by_cases hc2 : c2 = '%'
          · subst hc2
            have h2 : (some ['%', '%'] : Option Str) = some m := h
            injection h2 with h2
            exact Or.inr h2.symm
          · split at h
            · rename_i r heq
              obtain ⟨h1, -⟩ := List.cons.inj heq
              exact absurd h1 hc2
            · exact absurd h (by simp)
    · rw [specAt.eq_def] at h
      split at h
      · rename_i r heq
        obtain ⟨h1, -⟩ := List.cons.inj heq
        exact absurd h1 hc
      · exact absurd h (by simp)

theorem specAt_prefix {u m : Str} (h : specAt u = some m) : ∃ v, u = m ++ v := by
  rcases u with _ | ⟨c, rest⟩
  · rw [show specAt [] = none from rfl] at h
    exact absurd h (by simp)
  · by_cases hc : c = '%'
    · subst hc
      rw [specAt_cons_percent] at h
      by_cases hcond : (if (rest.dropWhile Char.isDigit).head? = some '$' then
          (rest.dropWhile Char.isDigit).tail
        else rest.dropWhile Char.isDigit).takeWhile atSet ≠ []
      · rw [if_pos hcond] at h
        injection h with h
        subst h
        by_cases hd : (rest.dropWhile Char.isDigit).head? = some '$'
        · obtain ⟨r, hr⟩ : ∃ r, rest.dropWhile Char.isDigit = '$' :: r := by
            cases hsp : rest.dropWhile Char.isDigit with
            | nil => rw [hsp] at hd; simp at hd
            | cons a b =>
              rw [hsp] at hd
              simp only [List.head?_cons, Option.some.injEq] at hd
              exact ⟨b, by rw [hd]⟩
          have h1 : rest = rest.takeWhile Char.isDigit ++ ('$' :: r) := by
            rw [← hr]; exact (List.takeWhile_append_dropWhile _ _).symm
          refine ⟨r.dropWhile atSet, ?_⟩
          rw [if_pos hd, if_pos hd, hr]
          conv_lhs => rw [h1]
          simp [List.takeWhile_append_dropWhile]
        · refine ⟨(rest.dropWhile Char.isDigit).dropWhile atSet, ?_⟩
          rw [if_neg hd, if_neg hd]
          simp [List.takeWhile_append_dropWhile]
      · rw [if_neg hcond] at h
        rcases rest with _ | ⟨c2, rest2⟩
        · exact absurd h (by simp)
        · by_cases hc2 : c2 = '%'
          · subst hc2
            have h2 : (some ['%', '%'] : Option Str) = some m := h
            injection h2 with h2
            refine ⟨rest2, ?_⟩
            rw [← h2]
            rfl
          · split at h
            · rename_i r heq
              obtain ⟨h1, -⟩ := List.cons.inj heq
              exact absurd h1 hc2
            · exact absurd h (by simp)
    · rw [specAt.eq_def] at h
      split at h
      · rename_i r heq
        obtain ⟨h1, -⟩ := List.cons.inj heq
        exact absurd h1 hc
      · exact absurd h (by simp)

theorem isSpecStr_specAt {s : Str} (h : isSpecStr s) (v : Str) :
    ∃ m, specAt (s ++ v) = some m := by
  rcases h with ⟨ds, dol, ls, hs, hds, hdol, hlsne, hls⟩ | hs
  · subst hs
    obtain ⟨l0, ls', rfl⟩ : ∃ l0 ls', ls = l0 :: ls' := by
      cases ls with
      | nil => exact absurd rfl hlsne
      | cons a b => exact ⟨a, b, rfl⟩
    have hl0 : atSet l0 = true := hls l0 (by simp)
    have hl0d : l0 ≠ '$' := (atSet_char_ne hl0).2.2.2.1
    rcases hdol with h0 | h0 <;> subst h0
    · have hrest : ('%' :: (ds ++ [] ++ (l0 :: ls'))) ++ v =
          '%' :: (ds ++ (l0 :: (ls' ++ v))) := by simp
      rw [hrest, specAt_cons_percent]
      have hu : ∀ c l', (l0 :: (ls' ++ v) : Str) = c :: l' → Char.isDigit c = false := by
        intro c l' he
        injection he with h1 _
        rw [← h1]
        exact (atSet_char_ne hl0).2.2.2.2
      obtain ⟨htw, hdw⟩ := takeWhile_exact hds hu
      rw [hdw]
      simp only [List.head?_cons, Option.some.injEq, if_neg hl0d,
        List.takeWhile_cons_of_pos hl0]
      rw [if_pos (by simp)]
      exact ⟨_, rfl⟩
    · have hrest : ('%' :: (ds ++ ['$'] ++ (l0 :: ls'))) ++ v =
          '%' :: (ds ++ ('$' :: (l0 :: (ls' ++ v)))) := by simp
      rw [hrest, specAt_cons_percent]
      have hu : ∀ c l', ('$' :: (l0 :: (ls' ++ v)) : Str) = c :: l' →
          Char.isDigit c = false := by
        intro c l' he
        injection he with h1 _
        rw [← h1]
        decide
      obtain ⟨htw, hdw⟩ := takeWhile_exact hds hu
      rw [hdw]
      have hcnd : (('$' :: l0 :: (ls' ++ v) : Str).head? = some '$') := rfl
      rw [if_pos hcnd, if_pos hcnd]
      have htw2 : (l0 :: (ls' ++ v) : Str).takeWhile atSet
          = l0 :: (ls' ++ v).takeWhile atSet := List.takeWhile_cons_of_pos hl0
      rw [List.tail_cons, htw2]
      rw [if_pos (by simp)]
      exact ⟨_, rfl⟩
  · subst hs
    have hrest : (['%', '%'] : Str) ++ v = '%' :: ('%' :: v) := by simp
    rw [hrest, specAt_cons_percent]
    have h1 : ('%' :: v : Str).takeWhile Char.isDigit = [] :=
      List.takeWhile_cons_of_neg (by decide)
    have h2 : ('%' :: v : Str).dropWhile Char.isDigit = '%' :: v :=
      List.dropWhile_cons_of_neg (by decide)
    rw [h2]
    simp only [List.head?_cons, Option.some.injEq, if_neg (by decide : ¬ ('%' : Char) = '$'),
      List.takeWhile_cons_of_neg (by decide : ¬ atSet '%' = true)]
    rw [if_neg (by simp)]
    exact ⟨_, rfl⟩

theorem drop_append_lt {X Y : Str} {k : Nat} (h : k < X.length) :
    (X ++ Y).drop k = X.drop k ++ Y := by
  rw [List.drop_append_eq_append_drop]
  have h0 : k - X.length = 0 := by omega
  rw [h0, List.drop_zero]

theorem drop_append_ge {X Y : Str} {k : Nat} (h : X.length ≤ k) :
    (X ++ Y).drop k = Y.drop (k - X.length) := by
  rw [List.drop_append_eq_append_drop, List.drop_eq_nil_of_le h, List.nil_append]

theorem prefix_cons_head {c : Char} {s u : Str} (h : (c :: s) <+: u) : ∃ u2, u = c :: u2 := by
  obtain ⟨w, hw⟩ := h
  exact ⟨s ++ w, by rw [← hw]; rfl⟩

theorem specScan_exists (t : Str) : ∃ ps g, SpecScan t ps g := by
  have H : ∀ n (u : Str), u.length ≤ n → ∃ ps g, SpecScan u ps g := by
    intro n
    induction n with
    | zero =>
      intro u hu
      have hnil : u = [] := List.length_eq_zero.mp (Nat.le_zero.mp hu)
      exact hnil ▸ ⟨[], [], SpecScan.nil⟩
    | succ n ih =>
      intro u hu
      cases u with
      | nil => exact ⟨[], [], SpecScan.nil⟩
      | cons c rest =>
        cases hsp : specAt (c :: rest) with
        | none =>
          obtain ⟨ps, g, hscan⟩ := ih rest (by simp at hu; omega)
          cases ps with
          | nil => exact ⟨[], c :: g, SpecScan.skipNil hsp hscan⟩
          | cons p tl =>
            obtain ⟨g0, s0⟩ := p
            exact ⟨(c :: g0, s0) :: tl, g, SpecScan.skipCons hsp hscan⟩
        | some m =>
          have hne : m ≠ [] := isSpecStr_ne_nil (specAt_isSpecStr hsp)
          have hmlen : 1 ≤ m.length := List.length_pos.mpr hne
          obtain ⟨ps, g, hscan⟩ := ih ((c :: rest).drop m.length)
            (by simp [List.length_drop] at hu ⊢; omega)
          exact ⟨([], m) :: ps, g, SpecScan.found hsp hscan⟩
  exact H t.length t le_rfl

theorem specScan_tailStr {t : Str} {ps : List (Str × Str)} {g : Str} (h : SpecScan t ps g) :
    tailStr ps g = t := by
  induction h with
  | nil => rfl
  | found hsp hscan ih =>
    obtain ⟨v, hv⟩ := specAt_prefix hsp
    simp only [tailStr, List.nil_append]
    rw [ih, hv, List.drop_left]
  | skipNil hsp hscan ih =>
    simp only [tailStr] at ih ⊢
    rw [ih]
  | skipCons hsp hscan ih =>
    simp only [tailStr, List.cons_append] at ih ⊢
    rw [ih]

theorem findSpecsAux_skip : ∀ (k : Nat) (s : Str), findSpecsAux k s = findSpecsAux 0 (s.drop k) := by
  intro k
  induction k with
  | zero => intro s; rw [List.drop_zero]
  | succ k ih =>
    intro s
    cases s with
    | nil => rfl
    | cons c rest =>
      rw [List.drop_succ_cons]
      exact ih rest

theorem specScan_findSpecs {t : Str} {ps : List (Str × Str)} {g : Str} (h : SpecScan t ps g) :
    findSpecs t = ps.map Prod.snd := by
  induction h with
  | nil => rfl
  | found hsp hscan ih =>
    rename_i c t2 m ps2 g2
    have hne : m ≠ [] := isSpecStr_ne_nil (specAt_isSpecStr hsp)
    obtain ⟨c0, m2, rfl⟩ : ∃ c0 m2, m = c0 :: m2 := by
      cases m with
      | nil => exact absurd rfl hne
      | cons a b => exact ⟨a, b, rfl⟩
    have hdrop : ((c :: t2).drop (c0 :: m2).length) = t2.drop m2.length := by
      rw [List.length_cons, List.drop_succ_cons]
    rw [hdrop] at ih
    simp only [findSpecs, findSpecsAux, hsp]
    rw [findSpecsAux_skip]
    simp only [List.length_cons, Nat.add_sub_cancel, List.map_cons]
    rw [show findSpecsAux 0 (t2.drop m2.length) = findSpecs (t2.drop m2.length) from rfl, ih]
  | skipNil hsp hscan ih =>
    rename_i c t2 g2
    simp only [findSpecs, findSpecsAux, hsp] at ih ⊢
    exact ih
  | skipCons hsp hscan ih =>
    rename_i c t2 g0 s0 g2 tl
    simp only [findSpecs, findSpecsAux, hsp, List.map_cons] at ih ⊢
    exact ih

theorem specScan_OK {t : Str} {ps : List (Str × Str)} {g : Str} (h : SpecScan t ps g) :
    OKpairs ps g ∧ OKgap g := by
  induction h with
  | nil =>
    refine ⟨trivial, fun k => ?_⟩
    rw [List.drop_nil]
    rfl
  | found hsp hscan ih =>
    rename_i c t2 m ps2 g2
    refine ⟨⟨fun k hk => absurd hk (by simp), ?_, ih.1⟩, ih.2⟩
    have ht := specScan_tailStr hscan
    obtain ⟨v, hv⟩ := specAt_prefix hsp
    rw [ht, hv, List.drop_left, ← hv]
    exact hsp
  | skipNil hsp hscan ih =>
    rename_i c t2 g2
    have ht := specScan_tailStr hscan
    simp only [tailStr] at ht
    refine ⟨trivial, fun k => ?_⟩
    cases k with
    | zero =>
      rw [List.drop_zero, ht]
      exact hsp
    | succ k =>
      rw [List.drop_succ_cons]
      exact ih.2 k
  | skipCons hsp hscan ih =>
    rename_i c t2 g0 s0 g2 tl
    obtain ⟨⟨hgap, hmatch, htl⟩, hOKg⟩ := ih
    have ht := specScan_tailStr hscan
    simp only [tailStr] at ht
    refine ⟨⟨?_, hmatch, htl⟩, hOKg⟩
    intro k hk
    cases k with
    | zero =>
      rw [List.drop_zero, List.cons_append, ht]
      exact hsp
    | succ k =>
      rw [List.drop_succ_cons]
      exact hgap k (by simp at hk; omega)

theorem digitChar_isDigit (m : Nat) : (digitChar m).isDigit = true := by
  rcases m with _|_|_|_|_|_|_|_|_|m <;> rfl

theorem valDigit_digitChar {m : Nat} (h : m < 10) : valDigit (digitChar m) = m := by
  interval_cases m <;> rfl

theorem natDigitsAux_all_digit : ∀ (f n : Nat), ∀ c ∈ natDigitsAux f n, c.isDigit = true := by
  intro f
  induction f with
  | zero => intro n c hc; simp [natDigitsAux] at hc
  | succ f ih =>
    intro n c hc
    rw [natDigitsAux] at hc
    split at hc
    · rw [List.mem_singleton] at hc
      rw [hc]
      exact digitChar_isDigit n
    · rw [List.mem_append, List.mem_singleton] at hc
      rcases hc with hc | hc
      · exact ih _ c hc
      · rw [hc]
        exact digitChar_isDigit _

theorem natDigits_all_digit {n : Nat} : ∀ c ∈ natDigits n, c.isDigit = true :=
  natDigitsAux_all_digit (n + 1) n

theorem digitsVal_append_singleton (s : Str) (c : Char) :
    digitsVal (s ++ [c]) = digitsVal s * 10 + valDigit c := by
  simp [digitsVal, List.foldl_append]

theorem natDigitsAux_val : ∀ (f n : Nat), n < 10 ^ f → digitsVal (natDigitsAux f n) = n := by
  intro f
  induction f with
  | zero =>
    intro n hn
    interval_cases n
    rfl
  | succ f ih =>
    intro n hn
    rw [natDigitsAux]
    split
    · rename_i h10
      simp [digitsVal, valDigit_digitChar h10]
    · rename_i h10
      have hb : n / 10 < 10 ^ f := by
        rw [Nat.div_lt_iff_lt_mul (by norm_num), ← pow_succ]
        exact hn
      rw [digitsVal_append_singleton, ih (n / 10) hb,
        valDigit_digitChar (Nat.mod_lt n (by norm_num))]
      omega

theorem natDigits_val (n : Nat) : digitsVal (natDigits n) = n := by
  apply natDigitsAux_val
  calc n < 10 ^ n := Nat.lt_pow_self (by norm_num) n
  _ ≤ 10 ^ (n + 1) := Nat.pow_le_pow_right (by norm_num) (Nat.le_succ n)

theorem natDigits_inj {i j : Nat} (h : natDigits i = natDigits j) : i = j := by
  have hv := natDigits_val i
  rw [h, natDigits_val j] at hv
  exact hv.symm

theorem marker_eq (i : Nat) : marker i = '⟨' :: (natDigits i ++ ['⟩']) := rfl

theorem marker_no_percent (i : Nat) : '%' ∉ marker i := by
  intro h
  rw [marker_eq] at h
  simp only [List.mem_cons, List.mem_append, List.mem_singleton] at h
  rcases h with h | h | h
  · exact absurd h (by decide)
  · exact absurd (natDigits_all_digit _ h) (by decide)
  · exact absurd h (by decide)

theorem marker_tail_no_lb (i : Nat) : '⟨' ∉ natDigits i ++ ['⟩'] := by
  intro h
  rw [List.mem_append, List.mem_singleton] at h
  rcases h with h | h
  · exact absurd (natDigits_all_digit _ h) (by decide)
  · exact absurd h (by decide)

theorem cons_prefix_iff2 {a b : Char} {l1 l2 : Str} :
    (a :: l1) <+: (b :: l2) ↔ a = b ∧ l1 <+: l2 := by
  constructor
  · intro h
    obtain ⟨w, hw⟩ := h
    injection hw with h1 h2
    exact ⟨h1, ⟨w, h2⟩⟩
  · rintro ⟨rfl, ⟨w, hw⟩⟩
    exact ⟨w, by rw [← hw]; rfl⟩

theorem replFirst_cons (c : Char) (rest pat rep : Str) :
    replFirst (c :: rest) pat rep =
      if pat.isPrefixOf (c :: rest) then rep ++ (c :: rest).drop pat.length
      else c :: replFirst rest pat rep := rfl

theorem replFirst_at {s : Str} (hs : s ≠ []) (rep : Str) :
    ∀ (A B : Str), (∀ k, k < A.length → ¬ s <+: (A ++ (s ++ B)).drop k) →
    replFirst (A ++ (s ++ B)) s rep = A ++ (rep ++ B) := by
  intro A
  induction A with
  | nil =>
    intro B hA
    obtain ⟨c, s2, rfl⟩ : ∃ c s2, s = c :: s2 := by
      cases s with
      | nil => exact absurd rfl hs
      | cons a b => exact ⟨a, b, rfl⟩
    have hpre : (c :: s2).isPrefixOf (c :: (s2 ++ B)) = true :=
      List.isPrefixOf_iff_prefix.mpr (List.prefix_append _ _)
    show replFirst (c :: (s2 ++ B)) (c :: s2) rep = rep ++ B
    rw [replFirst_cons, if_pos hpre, List.length_cons, List.drop_succ_cons, List.drop_left]
  | cons a A2 ihA =>
    intro B hA
    have h0 : ¬ s <+: ((a :: A2) ++ (s ++ B)) := by
      have hh := hA 0 (by simp)
      rwa [List.drop_zero] at hh
    have h0b : ¬ s.isPrefixOf (a :: (A2 ++ (s ++ B))) = true := by
      intro hb
      exact h0 (List.isPrefixOf_iff_prefix.mp hb)
    show replFirst (a :: (A2 ++ (s ++ B))) s rep = a :: (A2 ++ (rep ++ B))
    rw [replFirst_cons, if_neg h0b]
    have hA2 : ∀ k, k < A2.length → ¬ s <+: (A2 ++ (s ++ B)).drop k := by
      intro k hk
      have hh := hA (k + 1) (by simp; omega)
      rwa [List.cons_append, List.drop_succ_cons] at hh
    rw [ihA B hA2]

theorem replAllAux_skip {pat : Str} (hpat : pat ≠ []) (rep : Str) :
    ∀ (k : Nat) (s : Str), replAllAux pat rep k s = replAllAux pat rep 0 (s.drop k) := by
  intro k
  induction k with
  | zero => intro s; rw [List.drop_zero]
  | succ k ih =>
    intro s
    cases s with
    | nil => simp [replAllAux, hpat]
    | cons c rest =>
      rw [List.drop_succ_cons]
      exact ih rest

theorem replAll_no_occ {pat : Str} (hpat : pat ≠ []) (rep : Str) :
    ∀ (s : Str), (∀ k, ¬ pat <+: s.drop k) → replAll s pat rep = s := by
  intro s
  induction s with
  | nil => intro h; simp [replAll, replAllAux, hpat]
  | cons c rest ih =>
    intro h
    have h0 : ¬ pat <+: (c :: rest) := by
      have hh := h 0
      rwa [List.drop_zero] at hh
    have h0b : pat.isPrefixOf (c :: rest) = false := by
      rw [Bool.eq_false_iff]
      intro hb
      exact h0 (List.isPrefixOf_iff_prefix.mp hb)
    have hrest : ∀ k, ¬ pat <+: rest.drop k := by
      intro k
      have hh := h (k + 1)
      rwa [List.drop_succ_cons] at hh
    show replAllAux pat rep 0 (c :: rest) = c :: rest
    simp only [replAllAux]
    rw [if_neg (by simp [h0b]), if_neg hpat]
    rw [show replAllAux pat rep 0 rest = replAll rest pat rep from rfl, ih hrest]

theorem replAll_single {pat : Str} (hpat : pat ≠ []) (rep : Str) :
    ∀ (A B : Str), (∀ k, k < A.length → ¬ pat <+: (A ++ (pat ++ B)).drop k) →
    (∀ k, ¬ pat <+: B.drop k) →
    replAll (A ++ (pat ++ B)) pat rep = A ++ (rep ++ B) := by
  intro A
  induction A with
  | nil =>
    intro B hA hB
    obtain ⟨c, p2, hp⟩ : ∃ c p2, pat = c :: p2 := by
      cases pat with
      | nil => exact absurd rfl hpat
      | cons a b => exact ⟨a, b, rfl⟩
    subst hp
    have hpre : (c :: p2).isPrefixOf (c :: (p2 ++ B)) = true :=
      List.isPrefixOf_iff_prefix.mpr (List.prefix_append _ _)
    show replAllAux (c :: p2) rep 0 (c :: (p2 ++ B)) = rep ++ B
    simp only [replAllAux]
    rw [if_pos ⟨hpat, hpre⟩, replAllAux_skip hpat, List.length_cons, Nat.add_sub_cancel,
      List.drop_left]
    rw [show replAllAux (c :: p2) rep 0 B = replAll B (c :: p2) rep from rfl,
      replAll_no_occ hpat rep B hB]
  | cons a A2 ihA =>
    intro B hA hB
    have h0 : ¬ pat <+: ((a :: A2) ++ (pat ++ B)) := by
      have hh := hA 0 (by simp)
      rwa [List.drop_zero] at hh
    have h0b : pat.isPrefixOf (a :: (A2 ++ (pat ++ B))) = false := by
      rw [Bool.eq_false_iff]
      intro hb
      exact h0 (List.isPrefixOf_iff_prefix.mp hb)
    have hA2 : ∀ k, k < A2.length → ¬ pat <+: (A2 ++ (pat ++ B)).drop k := by
      intro k hk
      have hh := hA (k + 1) (by simp; omega)
      rwa [List.cons_append, List.drop_succ_cons] at hh
    show replAllAux pat rep 0 (a :: (A2 ++ (pat ++ B))) = a :: (A2 ++ (rep ++ B))
    simp only [replAllAux]
    rw [if_neg (by simp [h0b]), if_neg hpat]
    rw [show replAllAux pat rep 0 (A2 ++ (pat ++ B)) = replAll (A2 ++ (pat ++ B)) pat rep
      from rfl, ihA B hA2 hB]

theorem no_cross {P : Str} (hE : EndsRB P) (hP : SafeP P) {s : Str} (hs : isSpecStr s)
    (X : Str) : ∀ k, k < P.length → ¬ s <+: (P ++ X).drop k := by
  intro k hk hpre
  rw [drop_append_lt hk] at hpre
  by_cases hlen : s.length ≤ (P.drop k).length
  · exact hP s hs k (List.prefix_of_prefix_length_le hpre (List.prefix_append _ _) hlen)
  · have h2 : P.drop k <+: s :=
      List.prefix_of_prefix_length_le (List.prefix_append _ _) hpre (by omega)
    obtain ⟨Q, hQ⟩ : ∃ Q, P = Q ++ ['⟩'] := by
      rcases hE with h0 | h0
      · rw [h0] at hk; simp at hk
      · exact h0
    have hrb : '⟩' ∈ P.drop k := by
      rw [hQ, List.drop_append_eq_append_drop]
      have hkq : k - Q.length = 0 := by rw [hQ] at hk; simp at hk; omega
      rw [hkq, List.drop_zero]
      simp
    exact (isSpecStr_chars hs).2 (h2.subset hrb)

theorem no_lb_occ {A : Str} (hA : '⟨' ∉ A) (X : Str) {w : Str} :
    ∀ k, k < A.length → ¬ ('⟨' :: w) <+: (A ++ X).drop k := by
  intro k hk hpre
  rw [drop_append_lt hk] at hpre
  obtain ⟨a, A2, hA2⟩ : ∃ a A2, A.drop k = a :: A2 := by
    cases hd : A.drop k with
    | nil =>
      have hl : (A.drop k).length = 0 := by rw [hd]; rfl
      rw [List.length_drop] at hl
      omega
    | cons a b => exact ⟨a, b, rfl⟩
  rw [hA2, List.cons_append, cons_prefix_iff2] at hpre
  apply hA
  rw [hpre.1]
  have hmem : a ∈ A.drop k := by rw [hA2]; exact List.mem_cons_self a A2
  exact List.drop_subset k A hmem

theorem SafeP_nil : SafeP [] := by
  intro s hs k hpre
  rw [List.drop_nil] at hpre
  obtain ⟨w, hw⟩ := hpre
  exact isSpecStr_ne_nil hs (List.append_eq_nil.mp hw).1

theorem EndsRB_nil : EndsRB [] := Or.inl rfl

theorem EndsRB_append_marker (P : Str) (i : Nat) : EndsRB (P ++ marker i) :=
  Or.inr ⟨P ++ ('⟨' :: natDigits i), by rw [marker_eq]; simp⟩

theorem SafeP_append_marker {P g0 s0 B : Str} {i : Nat}
    (hP : SafeP P) (hE : EndsRB P)
    (hgap : ∀ k, k < g0.length → specAt (g0.drop k ++ (s0 ++ B)) = none) :
    SafeP ((P ++ g0) ++ marker i) := by
  intro s hs k hpre
  by_cases h1 : k < P.length
  · rw [show ((P ++ g0) ++ marker i) = P ++ (g0 ++ marker i) from by simp] at hpre
    exact no_cross hE hP hs (g0 ++ marker i) k h1 hpre
  · by_cases h2 : k < P.length + g0.length
    · have hk : k - P.length < g0.length := by omega
      rw [show ((P ++ g0) ++ marker i) = P ++ (g0 ++ marker i) from by simp,
        drop_append_ge (le_of_not_lt h1), drop_append_lt hk] at hpre
      by_cases h3 : s.length ≤ (g0.drop (k - P.length)).length
      · have h4 : s <+: g0.drop (k - P.length) :=
          List.prefix_of_prefix_length_le hpre (List.prefix_append _ _) h3
        obtain ⟨v, hv⟩ := h4.trans (List.prefix_append _ (s0 ++ B))
        obtain ⟨m, hm⟩ := isSpecStr_specAt hs v
        rw [hv, hgap _ hk] at hm
        simp at hm
      · have h4 : g0.drop (k - P.length) <+: s :=
          List.prefix_of_prefix_length_le (List.prefix_append _ _) hpre (by omega)
        obtain ⟨w, hw⟩ := h4
        have hwp : w <+: marker i := by
          rw [← hw] at hpre
          exact (List.prefix_append_right_inj _).mp hpre
        obtain ⟨c0, w2, hw2⟩ : ∃ c0 w2, w = c0 :: w2 := by
          cases w with
          | nil =>
            rw [List.append_nil] at hw
            exact absurd (by rw [← hw]) h3
          | cons a b => exact ⟨a, b, rfl⟩
        rw [hw2, marker_eq, cons_prefix_iff2] at hwp
        apply (isSpecStr_chars hs).1
        rw [← hw, hw2, hwp.1]
        simp
    · have hk2 : P.length + g0.length ≤ k := le_of_not_lt h2
      rw [drop_append_ge (by simp; omega)] at hpre
      obtain ⟨t2, ht2⟩ := isSpecStr_shape hs
      have hmem : '%' ∈ s := by rw [ht2]; simp
      exact marker_no_percent i (List.drop_subset _ _ (hpre.subset hmem))

theorem protectLoop_cons (t : Str) (i : Nat) (s : Str) (rest : List Str) :
    protectLoop t i (s :: rest) =
      ((protectLoop (replFirst t s (marker i)) (i + 1) rest).1,
        (marker i, s) :: (protectLoop (replFirst t s (marker i)) (i + 1) rest).2) := rfl

theorem protectLoop_eq {g : Str} :
    ∀ (ps : List (Str × Str)) (P : Str) (i : Nat),
    OKpairs ps g → SafeP P → EndsRB P →
    protectLoop (P ++ tailStr ps g) i (ps.map Prod.snd) =
      (P ++ interleaveP i ps g, zipMarkers i ps) := by
  intro ps
  induction ps with
  | nil => intro P i hOK hS hE; rfl
  | cons p tl ih =>
    intro P i hOK hS hE
    obtain ⟨g0, s0⟩ := p
    obtain ⟨hgap, hmatch, htl⟩ := hOK
    have hs0 : isSpecStr s0 := specAt_isSpecStr hmatch
    have hs0ne : s0 ≠ [] := isSpecStr_ne_nil hs0
    have hno : ∀ k, k < (P ++ g0).length →
        ¬ s0 <+: (((P ++ g0) ++ (s0 ++ tailStr tl g)).drop k) := by
      intro k hk
      by_cases h1 : k < P.length
      · rw [show ((P ++ g0) ++ (s0 ++ tailStr tl g)) = P ++ (g0 ++ (s0 ++ tailStr tl g))
          from by simp]
        exact no_cross hE hS hs0 _ k h1
      · intro hpre
        have hk2 : k - P.length < g0.length := by simp at hk; omega
        rw [show ((P ++ g0) ++ (s0 ++ tailStr tl g)) = P ++ (g0 ++ (s0 ++ tailStr tl g))
          from by simp, drop_append_ge (le_of_not_lt h1), drop_append_lt hk2] at hpre
        obtain ⟨v, hv⟩ := hpre
        obtain ⟨m, hm⟩ := isSpecStr_specAt hs0 v
        rw [hv, hgap _ hk2] at hm
        simp at hm
    have hrf : replFirst (P ++ tailStr ((g0, s0) :: tl) g) s0 (marker i) =
        ((P ++ g0) ++ marker i) ++ tailStr tl g := by
      rw [show P ++ tailStr ((g0, s0) :: tl) g = (P ++ g0) ++ (s0 ++ tailStr tl g)
        from by simp [tailStr]]
      rw [replFirst_at hs0ne (marker i) (P ++ g0) (tailStr tl g) hno]
      simp [List.append_assoc]
    have hS2 : SafeP ((P ++ g0) ++ marker i) := SafeP_append_marker hS hE hgap
    have hE2 : EndsRB ((P ++ g0) ++ marker i) := EndsRB_append_marker _ i
    have hih := ih (((P ++ g0) ++ marker i)) (i + 1) htl hS2 hE2
    show protectLoop (P ++ tailStr ((g0, s0) :: tl) g) i (s0 :: tl.map Prod.snd) = _
    rw [protectLoop_cons, hrf, hih]
    simp [interleaveP, zipMarkers, List.append_assoc]

theorem bracket_prefix_eq : ∀ (dsi dsj : Str), (∀ c ∈ dsi, c ≠ '⟩') → (∀ c ∈ dsj, c ≠ '⟩') →
    ∀ (X : Str), (dsi ++ ['⟩']) <+: ((dsj ++ ['⟩']) ++ X) → dsi = dsj := by
  intro dsi
  induction dsi with
  | nil =>
    intro dsj hdi hdj X h
    cases dsj with
    | nil => rfl
    | cons b dsj2 =>
      rw [show ((b :: dsj2) ++ ['⟩']) ++ X = b :: ((dsj2 ++ ['⟩']) ++ X) from by simp] at h
      simp only [List.nil_append] at h
      rw [cons_prefix_iff2] at h
      exact absurd h.1.symm (hdj b (List.mem_cons_self b dsj2))
  | cons a dsi2 ih =>
    intro dsj hdi hdj X h
    cases dsj with
    | nil =>
      simp only [List.nil_append] at h
      rw [show (a :: dsi2) ++ ['⟩'] = a :: (dsi2 ++ ['⟩']) from rfl,
        show (['⟩'] : Str) ++ X = '⟩' :: X from rfl, cons_prefix_iff2] at h
      exact absurd h.1 (hdi a (List.mem_cons_self a dsi2))
    | cons b dsj2 =>
      rw [show (a :: dsi2) ++ ['⟩'] = a :: (dsi2 ++ ['⟩']) from rfl,
        show ((b :: dsj2) ++ ['⟩']) ++ X = b :: ((dsj2 ++ ['⟩']) ++ X) from by simp,
        cons_prefix_iff2] at h
      rw [h.1]
      exact congrArg (List.cons b)
        (ih dsj2 (fun c hc => hdi c (List.mem_cons_of_mem a hc))
          (fun c hc => hdj c (List.mem_cons_of_mem b hc)) X h.2)

theorem marker_prefix_inj {i j : Nat} {X : Str} (h : marker i <+: marker j ++ X) : i = j := by
  rw [marker_eq, marker_eq, List.cons_append, cons_prefix_iff2] at h
  refine natDigits_inj (bracket_prefix_eq (natDigits i) (natDigits j) ?_ ?_ X h.2)
  · intro c hc
    exact (digit_char_ne (natDigits_all_digit _ hc)).2.1
  · intro c hc
    exact (digit_char_ne (natDigits_all_digit _ hc)).2.1

theorem no_marker_occ {g : Str} (hg : '⟨' ∉ g) :
    ∀ (tl : List (Str × Str)) (j i : Nat), i < j →
    (∀ p ∈ tl, '⟨' ∉ p.1) → ∀ k, ¬ marker i <+: (interleaveP j tl g).drop k := by
  intro tl
  induction tl with
  | nil =>
    intro j i hij htl k hpre
    simp only [interleaveP] at hpre
    have hin : '⟨' ∈ marker i := by rw [marker_eq]; simp
    exact hg (List.drop_subset _ _ (hpre.subset hin))
  | cons p tl2 ih =>
    intro j i hij htl k hpre
    obtain ⟨g1, s1⟩ := p
    simp only [interleaveP] at hpre
    by_cases h1 : k < g1.length
    · rw [marker_eq] at hpre
      exact no_lb_occ (htl (g1, s1) (List.mem_cons_self _ _)) _ k h1 hpre
    · rw [drop_append_ge (le_of_not_lt h1)] at hpre
      cases hk0 : k - g1.length with
      | zero =>
        rw [hk0, List.drop_zero] at hpre
        exact absurd (marker_prefix_inj hpre) (by omega)
      | succ k3 =>
        rw [hk0, show marker j ++ interleaveP (j + 1) tl2 g =
          '⟨' :: ((natDigits j ++ ['⟩']) ++ interleaveP (j + 1) tl2 g) from by
            rw [marker_eq]; simp, List.drop_succ_cons] at hpre
        by_cases h3 : k3 < (natDigits j ++ ['⟩']).length
        · rw [marker_eq] at hpre
          exact no_lb_occ (marker_tail_no_lb j) _ k3 h3 hpre
        · rw [drop_append_ge (le_of_not_lt h3)] at hpre
          exact ih (j + 1) i (by omega) (fun q hq => htl q (List.mem_cons_of_mem _ hq)) _ hpre

theorem restore_eq {g : Str} (hg : '⟨' ∉ g) :
    ∀ (ps : List (Str × Str)) (R : Str) (i : Nat),
    (∀ p ∈ ps, '⟨' ∉ p.1 ∧ isSpecStr p.2) → '⟨' ∉ R →
    restore_format_specifiers (R ++ interleaveP i ps g) (zipMarkers i ps) =
      R ++ tailStr ps g := by
  intro ps
  induction ps with
  | nil => intro R i hps hR; rfl
  | cons p tl ih =>
    intro R i hps hR
    obtain ⟨g0, s0⟩ := p
    obtain ⟨hg0, hs0⟩ := hps (g0, s0) (List.mem_cons_self _ _)
    have hs0lb : '⟨' ∉ s0 := (isSpecStr_chars hs0).1
    have hX : R ++ interleaveP i ((g0, s0) :: tl) g =
        (R ++ g0) ++ (marker i ++ interleaveP (i + 1) tl g) := by
      simp [interleaveP, List.append_assoc]
    have hRg0 : '⟨' ∉ R ++ g0 := by
      intro hm
      rw [List.mem_append] at hm
      rcases hm with hm | hm
      · exact hR hm
      · exact hg0 hm
    have hA : ∀ k, k < (R ++ g0).length →
        ¬ marker i <+: (((R ++ g0) ++ (marker i ++ interleaveP (i + 1) tl g)).drop k) := by
      intro k hk
      rw [marker_eq]
      exact no_lb_occ hRg0 _ k hk
    have hB : ∀ k, ¬ marker i <+: (interleaveP (i + 1) tl g).drop k :=
      fun k => no_marker_occ hg tl (i + 1) i (by omega)
        (fun q hq => (hps q (List.mem_cons_of_mem _ hq)).1) k
    have hrepl : replAll ((R ++ g0) ++ (marker i ++ interleaveP (i + 1) tl g))
        (marker i) s0 = (R ++ g0) ++ (s0 ++ interleaveP (i + 1) tl g) :=
      replAll_single (by rw [marker_eq]; simp) s0 (R ++ g0) (interleaveP (i + 1) tl g) hA hB
    show restore_format_specifiers
        (replAll (R ++ interleaveP i ((g0, s0) :: tl) g) (marker i) s0)
        (zipMarkers (i + 1) tl) = _
    rw [hX, hrepl]
    have hR2 : '⟨' ∉ (R ++ g0) ++ s0 := by
      intro hm
      rw [List.mem_append] at hm
      rcases hm with hm | hm
      · exact hRg0 hm
      · exact hs0lb hm
    have hih := ih ((R ++ g0) ++ s0) (i + 1)
      (fun q hq => hps q (List.mem_cons_of_mem _ hq)) hR2
    rw [show (R ++ g0) ++ (s0 ++ interleaveP (i + 1) tl g) =
      ((R ++ g0) ++ s0) ++ interleaveP (i + 1) tl g from by simp [List.append_assoc]]
    rw [hih]
    simp [tailStr, List.append_assoc]

theorem no_lb_tailStr : ∀ (ps : List (Str × Str)) (g : Str), '⟨' ∉ tailStr ps g →
    (∀ p ∈ ps, '⟨' ∉ p.1) ∧ '⟨' ∉ g := by
  intro ps
  induction ps with
  | nil => intro g h; exact ⟨fun p hp => absurd hp (List.not_mem_nil p), h⟩
  | cons p tl ih =>
    intro g h
    obtain ⟨g0, s0⟩ := p
    simp only [tailStr, List.mem_append, not_or] at h
    obtain ⟨h1, h2, h3⟩ := h
    obtain ⟨ih1, ih2⟩ := ih g h3
    refine ⟨?_, ih2⟩
    intro q hq
    rcases List.mem_cons.mp hq with rfl | hq
    · exact h1
    · exact ih1 q hq

theorem OKpairs_all_spec : ∀ (ps : List (Str × Str)) (g : Str), OKpairs ps g →
    ∀ p ∈ ps, isSpecStr p.2 := by
  intro ps
  induction ps with
  | nil => intro g h p hp; exact absurd hp (List.not_mem_nil p)
  | cons q tl ih =>
    intro g h p hp
    obtain ⟨g0, s0⟩ := q
    obtain ⟨hgap, hmatch, htl⟩ := h
    rcases List.mem_cons.mp hp with rfl | hp
    · exact specAt_isSpecStr hmatch
    · exact ih g htl p hp

theorem protect_eq_ite (t : Str) :
    protect_format_specifiers t =
      if findSpecs t = [] then (t, []) else protectLoop t 0 (findSpecs t) := rfl

/-- C1: for every text that does not contain the marker bracket character
`⟨`, `_restore_format_specifiers` applied to the output of
`_protect_format_specifiers` returns the original text unchanged. -/
theorem C1_round_trip (t : Str) (h : '⟨' ∉ t) :
    restore_format_specifiers (protect_format_specifiers t).1
      (protect_format_specifiers t).2 = t := by
  obtain ⟨ps, g, hscan⟩ := specScan_exists t
  have htail := specScan_tailStr hscan
  have hfs := specScan_findSpecs hscan
  obtain ⟨hOK, hOKg⟩ := specScan_OK hscan
  rw [protect_eq_ite]
  by_cases hnil : findSpecs t = []
  · rw [if_pos hnil]
    rfl
  · rw [if_neg hnil]
    have hlb : '⟨' ∉ tailStr ps g := by rw [htail]; exact h
    obtain ⟨hps_lb, hg_lb⟩ := no_lb_tailStr ps g hlb
    have hplp : protectLoop t 0 (findSpecs t) =
        ([] ++ interleaveP 0 ps g, zipMarkers 0 ps) := by
      rw [hfs, show t = [] ++ tailStr ps g from by rw [List.nil_append, htail]]
      exact protectLoop_eq ps [] 0 hOK SafeP_nil EndsRB_nil
    rw [hplp]
    dsimp only
    have hrest := restore_eq hg_lb ps [] 0
      (fun p hp => ⟨hps_lb p hp, OKpairs_all_spec ps g hOK p hp⟩) (by simp)
    rw [hrest, List.nil_append, htail]

/-- C1 counterexample: on the text `⟨0⟩%d`, which contains the marker
bracket, protect followed by restore yields `%d%d`, not the original text. -/
theorem C1_counterexample :
    restore_format_specifiers (protect_format_specifiers ("⟨0⟩%d".data)).1
        (protect_format_specifiers ("⟨0⟩%d".data)).2 = "%d%d".data ∧
      "%d%d".data ≠ "⟨0⟩%d".data :=
  ⟨by decide, by decide⟩

/-- C1 witness: the round trip restores a realistic text with several
specifiers, including a positional one and a literal percent. -/
theorem C1_witness :
    '⟨' ∉ "Hello %@, you have %d items (%1$@, 5%%)".data ∧
      restore_format_specifiers
        (protect_format_specifiers "Hello %@, you have %d items (%1$@, 5%%)".data).1
        (protect_format_specifiers "Hello %@, you have %d items (%1$@, 5%%)".data).2 =
      "Hello %@, you have %d items (%1$@, 5%%)".data :=
  ⟨by decide, C1_round_trip _ (by decide)⟩
